import Mathlib

/-!
Verification of the jail.conf parser in jailconf-rs (src/lib.rs).

The library is a nom-based recursive-descent parser for FreeBSD jail.conf
files.  This file gives a shallow embedding of src/lib.rs over Lean lists of
characters and proves/refutes the specification claims against it.

Modelling conventions:

* The input type `&str` is embedded as `List Char`; a parser result
  `IResult<&str, T>`, i.e. `Result<(&str, T), nom::Err>`, is embedded as
  `Option (List Char × T)` where the first component is the *remaining*
  input (nom returns `(rest, value)`).  All error variants are collapsed
  into `none`; the entry point only distinguishes `Ok` from `Err`.

* The nom combinators are embedded in their "complete input" flavour:
  running out of input is an ordinary parse failure, never `Incomplete`.
  This matches the crate's explicit use of `nom::character::complete` in
  src/lib.rs and its earlier revision (src/main.rs), which ran the very
  same grammar over `nom::types::CompleteStr` - complete semantics
  throughout.  Under this reading the integration tests of src/lib.rs
  (whole-document and block parses) behave as asserted.

* One consequence of the complete reading is worth noting: in
  `parse_block` the `multispace0` that precedes `not!(is_a!(";\n"))`
  already consumes a newline between the name and `\x7b`, so that check
  only ever rejects a `;` there.  No claim concerns this corner.

* `parse_input` and `parse_block` are mutually recursive in the source.
  They are embedded with an explicit fuel argument so that every
  definition is structurally recursive and computable by the kernel;
  the wrappers fix fuel `length + 1`, and `parse_input_fuel_stable`
  below proves that any fuel above the input length yields the same
  result, so the fuel is semantically invisible.

Field-by-field correspondence with src/lib.rs:
`CommentStyle` (C/CPP/Shell) and the payload structs `JailComment`,
`JailParamBool`, `JailParamValue` are carried over verbatim; the Rust
`JailBlock { name, params }` struct is inlined into the `JailConf.Block`
constructor (its two fields become the constructor's two arguments).
-/

/-- Embeds `CommentStyle` from src/lib.rs. -/
inductive CommentStyle where
  | C
  | CPP
  | Shell
deriving DecidableEq, Repr

/-- Embeds `JailComment` from src/lib.rs: the comment text (exact interior between
the delimiters) and its style. -/
structure JailComment where
  comment : List Char
  style : CommentStyle
deriving DecidableEq, Repr

/-- Embeds `JailParamBool` from src/lib.rs: a valueless boolean parameter. -/
structure JailParamBool where
  name : List Char
deriving DecidableEq, Repr

/-- Embeds `JailParamValue` from src/lib.rs: a parameter with a value and the
append flag (`+=`). -/
structure JailParamValue where
  name : List Char
  value : List Char
  append : Bool
deriving DecidableEq, Repr

/-- Embeds `JailConf` from src/lib.rs.  The Rust `Block` variant carries a
`JailBlock { name, params }`; here the two fields are inlined as the two
arguments of `Block`. -/
inductive JailConf where
  | Block : List Char → List JailConf → JailConf
  | Comment : JailComment → JailConf
  | ParamBool : JailParamBool → JailConf
  | ParamValue : JailParamValue → JailConf

/-! ## The nom combinators used by src/lib.rs (complete-input flavour) -/

/-- The whitespace class of nom's `multispace0`: space, tab, CR, LF. -/
def isMultispace (c : Char) : Bool :=
  c = ' ' || c = '\t' || c = '\r' || c = '\n'

/-- nom `multispace0`: drop leading whitespace; always succeeds. -/
def multispace0 (s : List Char) : List Char :=
  s.dropWhile isMultispace

/-- The class of nom's `space0`: space and tab only. -/
def isSpaceTab (c : Char) : Bool :=
  c = ' ' || c = '\t'

/-- nom `space0`: drop leading spaces/tabs; always succeeds. -/
def space0 (s : List Char) : List Char :=
  s.dropWhile isSpaceTab

/-- nom `tag!(t)`: consume exactly `t` or fail. -/
def tagP (t s : List Char) : Option (List Char) :=
  if t.isPrefixOf s then some (s.drop t.length) else none

/-- nom `char!(c)`: consume exactly the character `c` or fail. -/
def charP (c : Char) : List Char → Option (List Char)
  | [] => none
  | d :: r => if d = c then some r else none

/-- nom `is_not!(bad)`: longest nonempty run of characters outside `bad`;
fails if the first character is in `bad` or the input is empty.  Returns
`(rest, token)`. -/
def isNot (bad s : List Char) : Option (List Char × List Char) :=
  let tok := s.takeWhile fun c => !bad.contains c
  if tok.isEmpty then none
  else some (s.dropWhile (fun c => !bad.contains c), tok)

/-- nom `is_a!(good)`: longest nonempty run of characters from `good`;
fails if the first character is outside `good` or the input is empty. -/
def isA (good s : List Char) : Option (List Char × List Char) :=
  let tok := s.takeWhile fun c => good.contains c
  if tok.isEmpty then none
  else some (s.dropWhile (fun c => good.contains c), tok)

/-- nom `not!(...)`: succeed (consuming nothing) exactly when the inner
parser failed. -/
def notP {α : Type} (o : Option α) : Option Unit :=
  match o with
  | some _ => none
  | none => some ()

/-- nom `take_till!(p)`: possibly-empty run of characters until `p` holds;
always succeeds.  Returns `(rest, token)`. -/
def takeTill (p : Char → Bool) (s : List Char) : List Char × List Char :=
  (s.dropWhile (fun c => !p c), s.takeWhile fun c => !p c)

/-- nom `take_until!(t)`: characters strictly before the first occurrence of
`t`, which is not consumed; fails when `t` does not occur. -/
def takeUntil (t : List Char) : List Char → Option (List Char × List Char)
  | [] => if t.isPrefixOf [] then some ([], []) else none
  | c :: rest =>
    if t.isPrefixOf (c :: rest) then some (c :: rest, [])
    else
      match takeUntil t rest with
      | none => none
      | some (rem, tok) => some (rem, c :: tok)

/-- nom `opt!(char!(c))` combined with `is_some()`: consume `c` if present,
report whether it was. -/
def optChar (c : Char) (s : List Char) : List Char × Bool :=
  match charP c s with
  | some r => (r, true)
  | none => (s, false)

/-- nom `opt_res!(tag!(t))` used purely for its input consumption: consume
`t` if present, otherwise leave the input unchanged; never fails. -/
def optTag (t s : List Char) : List Char :=
  match tagP t s with
  | some r => r
  | none => s

/-! ## The scanners of src/lib.rs -/

/-- Embeds `parse_comment_c_style` from src/lib.rs:
`multispace0 >> tag!("/*") >> take_until!("*/") >> tag!("*/") >> multispace0`. -/
def parse_comment_c_style (s : List Char) : Option (List Char × JailComment) :=
  let s0 := multispace0 s
  match tagP ['/', '*'] s0 with
  | none => none
  | some s1 =>
    match takeUntil ['*', '/'] s1 with
    | none => none
    | some (s2, res) =>
      match tagP ['*', '/'] s2 with
      | none => none
      | some s3 => some (multispace0 s3, { comment := res, style := .C })

/-- Embeds `parse_comment_cpp_style` from src/lib.rs:
`multispace0 >> tag!("//") >> take_until!("\n") >> multispace0`. -/
def parse_comment_cpp_style (s : List Char) : Option (List Char × JailComment) :=
  let s0 := multispace0 s
  match tagP ['/', '/'] s0 with
  | none => none
  | some s1 =>
    match takeUntil ['\n'] s1 with
    | none => none
    | some (s2, res) => some (multispace0 s2, { comment := res, style := .CPP })

/-- Embeds `parse_comment_shell_style` from src/lib.rs:
`multispace0 >> tag!("#") >> take_until!("\n") >> multispace0`. -/
def parse_comment_shell_style (s : List Char) : Option (List Char × JailComment) :=
  let s0 := multispace0 s
  match tagP ['#'] s0 with
  | none => none
  | some s1 =>
    match takeUntil ['\n'] s1 with
    | none => none
    | some (s2, res) => some (multispace0 s2, { comment := res, style := .Shell })

/-- Embeds `parse_bool_param_no_value` from src/lib.rs:
`multispace0 >> name: is_not!(" +=;\n") >> not!(is_a!(" +=\n")) >> char!(';')
>> multispace0`. -/
def parse_bool_param_no_value (s : List Char) : Option (List Char × JailParamBool) :=
  let s0 := multispace0 s
  match isNot [' ', '+', '=', ';', '\n'] s0 with
  | none => none
  | some (s1, name) =>
    match notP (isA [' ', '+', '=', '\n'] s1) with
    | none => none
    | some _ =>
      match charP ';' s1 with
      | none => none
      | some s2 => some (multispace0 s2, { name := name })

/-- Embeds `parse_param_with_value` from src/lib.rs:
`multispace0 >> name: is_not!(" +=;\n") >> not!(is_a!(";\n")) >> space0 >>
plus: opt!(char!('+')) >> char!('=') >> space0 >>
value: delimited!(opt_res!(tag!("\"")), take_till!(ch in ['"',';','\n']),
opt_res!(tag!("\""))) >> not!(is_a!("\n")) >> char!(';') >> multispace0`. -/
def parse_param_with_value (s : List Char) : Option (List Char × JailParamValue) :=
  let s0 := multispace0 s
  match isNot [' ', '+', '=', ';', '\n'] s0 with
  | none => none
  | some (s1, name) =>
    match notP (isA [';', '\n'] s1) with
    | none => none
    | some _ =>
      let s3 := space0 s1
      let (s4, plus) := optChar '+' s3
      match charP '=' s4 with
      | none => none
      | some s5 =>
        let s6 := space0 s5
        let s7 := optTag ['\"'] s6
        let (s8, value) := takeTill (fun ch => (['\"', ';', '\n']).contains ch) s7
        let s9 := optTag ['\"'] s8
        match notP (isA ['\n'] s9) with
        | none => none
        | some _ =>
          match charP ';' s9 with
          | none => none
          | some s10 =>
            some (multispace0 s10, { name := name, value := value, append := plus })

/-! ## The mutually recursive document parser

`parse_block` and `parse_input` (src/lib.rs) call each other.  They are
embedded as `_core` functions parameterised by the document parser to be
used for a block's interior, tied together by the fuelled `parse_input_fuel`
(structural recursion on the fuel), and finally wrapped with fuel
`length + 1`, which `parse_input_fuel_stable` proves sufficient. -/

/-- Body of `parse_block` from src/lib.rs, parameterised by the document
parser used for the block interior:
`multispace0 >> name: is_not!(" {;\n") >> multispace0 >> not!(is_a!(";\n"))
>> multispace0 >> char!('{') >> multispace0 >> block: parse_input >>
multispace0 >> char!('}') >> multispace0`. -/
def parse_block_core (pinput : List Char → Option (List Char × List JailConf))
    (s : List Char) : Option (List Char × JailConf) :=
  let s0 := multispace0 s
  match isNot [' ', '\x7b', ';', '\n'] s0 with
  | none => none
  | some (s1, name) =>
    let s2 := multispace0 s1
    match notP (isA [';', '\n'] s2) with
    | none => none
    | some _ =>
      let s4 := multispace0 s2
      match charP '\x7b' s4 with
      | none => none
      | some s5 =>
        let s6 := multispace0 s5
        match pinput s6 with
        | none => none
        | some (s7, params) =>
          let s8 := multispace0 s7
          match charP '\x7d' s8 with
          | none => none
          | some s9 => some (multispace0 s9, .Block name params)

/-- The `alt!` body inside `parse_input` (src/lib.rs): try the three comment
scanners, the boolean scanner, the value scanner and finally the block
parser, in this order, mapping each into `JailConf`. -/
def parse_entry_core (pinput : List Char → Option (List Char × List JailConf))
    (s : List Char) : Option (List Char × JailConf) :=
  match parse_comment_c_style s with
  | some (r, c) => some (r, .Comment c)
  | none =>
    match parse_comment_cpp_style s with
    | some (r, c) => some (r, .Comment c)
    | none =>
      match parse_comment_shell_style s with
      | some (r, c) => some (r, .Comment c)
      | none =>
        match parse_bool_param_no_value s with
        | some (r, p) => some (r, .ParamBool p)
        | none =>
          match parse_param_with_value s with
          | some (r, p) => some (r, .ParamValue p)
          | none => parse_block_core pinput s

/-- Fuelled `parse_input` from src/lib.rs: `many0!(alt!(...))`.  nom's
`many0` stops (successfully) when the inner parser fails, and errors out if
the inner parser succeeded without consuming input (`i1 == i`).  The fuel
only bounds the recursion depth; any fuel above the input length gives the
same result (`parse_input_fuel_stable`). -/
def parse_input_fuel : Nat → List Char → Option (List Char × List JailConf)
  | 0, _ => none
  | f + 1, s =>
    match parse_entry_core (parse_input_fuel f) s with
    | none => some (s, [])
    | some (s', e) =>
      if s' = s then none
      else
        match parse_input_fuel f s' with
        | none => none
        | some (rem, es) => some (rem, e :: es)

/-- Embeds `parse_input` from src/lib.rs, at the canonical (sufficient) fuel. -/
def parse_input (s : List Char) : Option (List Char × List JailConf) :=
  parse_input_fuel (s.length + 1) s

/-- Embeds `parse_block` from src/lib.rs: the block body with the recursive call
going to `parse_input`. -/
def parse_block (s : List Char) : Option (List Char × JailConf) :=
  parse_block_core parse_input s

/-- One alternative step of `parse_input`'s `alt!`, with the recursive call
going to `parse_input`. -/
def parse_entry (s : List Char) : Option (List Char × JailConf) :=
  parse_entry_core parse_input s

/-- Embeds `parse` from src/lib.rs, the public entry point: run `parse_input` and
on success return only the entry list, discarding the unparsed remainder
(the Rust code binds it as `_unparsed`).  `none` plays the role of
`Err(ParseError)`. -/
def parse (s : List Char) : Option (List JailConf) :=
  match parse_input s with
  | some (_unparsed, parsed) => some parsed
  | none => none

/-! ## List toolkit -/

theorem takeWhile_append_all {p : Char → Bool} :
    ∀ (w r : List Char), (∀ c ∈ w, p c = true) →
      (w ++ r).takeWhile p = w ++ r.takeWhile p := by
  intro w
  induction w with
  | nil => intro r _; rfl
  | cons a w ih =>
    intro r hw
    have ha : p a = true := hw a (by simp)
    simp [List.takeWhile_cons, ha]
    exact ih r fun c hc => hw c (by simp [hc])

theorem dropWhile_append_all {p : Char → Bool} :
    ∀ (w r : List Char), (∀ c ∈ w, p c = true) →
      (w ++ r).dropWhile p = r.dropWhile p := by
  intro w
  induction w with
  | nil => intro r _; rfl
  | cons a w ih =>
    intro r hw
    have ha : p a = true := hw a (by simp)
    simp [List.dropWhile_cons, ha]
    exact ih r fun c hc => hw c (by simp [hc])

theorem takeWhile_stop {p : Char → Bool} (N : List Char) (d : Char) (r : List Char)
    (hN : ∀ c ∈ N, p c = true) (hd : p d = false) :
    (N ++ d :: r).takeWhile p = N := by
  rw [takeWhile_append_all N (d :: r) hN]
  simp [List.takeWhile_cons, hd]

theorem dropWhile_stop {p : Char → Bool} (N : List Char) (d : Char) (r : List Char)
    (hN : ∀ c ∈ N, p c = true) (hd : p d = false) :
    (N ++ d :: r).dropWhile p = d :: r := by
  rw [dropWhile_append_all N (d :: r) hN]
  simp [List.dropWhile_cons, hd]

theorem dropWhile_nil_or_head (p : Char → Bool) :
    ∀ l : List Char, l.dropWhile p = [] ∨
      ∃ c t, l.dropWhile p = c :: t ∧ p c = false := by
  intro l
  induction l with
  | nil => exact Or.inl rfl
  | cons a l ih =>
    by_cases ha : p a = true
    · simpa [List.dropWhile_cons, ha] using ih
    · exact Or.inr ⟨a, l, by simp [List.dropWhile_cons, ha], by simpa using ha⟩

theorem takeWhile_ne_nil_dropWhile_length {p : Char → Bool} {l : List Char}
    (h : l.takeWhile p ≠ []) : (l.dropWhile p).length < l.length := by
  have hsplit := List.takeWhile_append_dropWhile p l
  have : (l.takeWhile p).length + (l.dropWhile p).length = l.length := by
    rw [← List.length_append, hsplit]
  have hpos : 0 < (l.takeWhile p).length := List.length_pos.mpr h
  omega

/-! ## Combinator lemmas -/

theorem ms0_nil : multispace0 [] = [] := rfl

theorem ms0_cons_false {c : Char} (h : isMultispace c = false) (r : List Char) :
    multispace0 (c :: r) = c :: r := by
  simp [multispace0, List.dropWhile_cons, h]

theorem ms0_append_ws {w : List Char} (hw : ∀ c ∈ w, isMultispace c = true)
    (r : List Char) : multispace0 (w ++ r) = multispace0 r :=
  dropWhile_append_all w r hw

theorem sp0_cons_false {c : Char} (h : isSpaceTab c = false) (r : List Char) :
    space0 (c :: r) = c :: r := by
  simp [space0, List.dropWhile_cons, h]

theorem sp0_cons_true {c : Char} (h : isSpaceTab c = true) (r : List Char) :
    space0 (c :: r) = space0 r := by
  simp [space0, List.dropWhile_cons, h]

theorem isNot_spec {bad : List Char} (N : List Char) (d : Char) (r : List Char)
    (hN : ∀ c ∈ N, c ∉ bad) (hne : N ≠ []) (hd : d ∈ bad) :
    isNot bad (N ++ d :: r) = some (d :: r, N) := by
  have h1 : ∀ c ∈ N, (!bad.contains c) = true := fun c hc => by simp [hN c hc]
  have h2 : (!bad.contains d) = false := by simp [hd]
  have htw : (N ++ d :: r).takeWhile (fun c => !bad.contains c) = N :=
    takeWhile_stop N d r h1 h2
  have hdw : (N ++ d :: r).dropWhile (fun c => !bad.contains c) = d :: r :=
    dropWhile_stop N d r h1 h2
  simp only [isNot, htw, hdw]
  cases N with
  | nil => exact absurd rfl hne
  | cons a t => simp

theorem isNot_none_head {bad : List Char} {d : Char} (hd : d ∈ bad)
    (r : List Char) : isNot bad (d :: r) = none := by
  simp [isNot, List.takeWhile_cons, hd]

theorem isNot_nil (bad : List Char) : isNot bad [] = none := rfl

theorem isA_none_head {good : List Char} {d : Char} (hd : d ∉ good)
    (r : List Char) : isA good (d :: r) = none := by
  simp [isA, List.takeWhile_cons, hd]

theorem isA_nil (good : List Char) : isA good [] = none := rfl

theorem notP_isA_head {good : List Char} {d : Char} (hd : d ∈ good)
    (r : List Char) : notP (isA good (d :: r)) = none := by
  simp [isA, notP, List.takeWhile_cons, hd]

theorem notP_of_none {α : Type} {o : Option α} (h : o = none) : notP o = some () := by
  simp [notP, h]

theorem charP_eq (c : Char) (r : List Char) : charP c (c :: r) = some r := by
  simp [charP]

theorem charP_ne {c d : Char} (h : d ≠ c) (r : List Char) :
    charP c (d :: r) = none := by
  simp [charP, h]

theorem charP_nil (c : Char) : charP c [] = none := rfl

theorem optChar_hit (c : Char) (r : List Char) : optChar c (c :: r) = (r, true) := by
  simp [optChar, charP]

theorem optChar_miss {c d : Char} (h : d ≠ c) (r : List Char) :
    optChar c (d :: r) = (d :: r, false) := by
  simp [optChar, charP, h]

theorem optChar_nil (c : Char) : optChar c [] = ([], false) := rfl

theorem optTag_quote_hit (r : List Char) : optTag ['\"'] ('\"' :: r) = r := by
  simp [optTag, tagP, List.isPrefixOf]

theorem optTag_quote_miss {d : Char} (h : d ≠ '\"') (r : List Char) :
    optTag ['\"'] (d :: r) = d :: r := by
  have hc : ('\"' == d) = false := beq_eq_false_iff_ne.mpr (Ne.symm h)
  simp [optTag, tagP, List.isPrefixOf, hc]

theorem optTag_quote_nil : optTag ['\"'] [] = [] := rfl

theorem takeTill_spec {p : Char → Bool} (V : List Char) (d : Char) (r : List Char)
    (hV : ∀ c ∈ V, p c = false) (hd : p d = true) :
    takeTill p (V ++ d :: r) = (d :: r, V) := by
  have h1 : ∀ c ∈ V, (!p c) = true := fun c hc => by simp [hV c hc]
  have h2 : (!p d) = false := by simp [hd]
  simp [takeTill, takeWhile_stop V d r h1 h2, dropWhile_stop V d r h1 h2]

theorem takeTill_nil (p : Char → Bool) : takeTill p [] = ([], []) := rfl

theorem takeUntil_nl {t : List Char} (h : '\n' ∉ t) (r : List Char) :
    takeUntil ['\n'] (t ++ '\n' :: r) = some ('\n' :: r, t) := by
  induction t with
  | nil => simp [takeUntil, List.isPrefixOf]
  | cons c t ih =>
    have hne : c ≠ '\n' := fun hcc => h (by simp [hcc])
    have hc : ('\n' == c) = false := beq_eq_false_iff_ne.mpr (Ne.symm hne)
    have ih' := ih fun hm => h (by simp [hm])
    simp [takeUntil, List.isPrefixOf, hc, ih']

theorem takeUntil_nl_none {t : List Char} (h : '\n' ∉ t) :
    takeUntil ['\n'] t = none := by
  induction t with
  | nil => simp [takeUntil, List.isPrefixOf]
  | cons c t ih =>
    have hne : c ≠ '\n' := fun hcc => h (by simp [hcc])
    have hc : ('\n' == c) = false := beq_eq_false_iff_ne.mpr (Ne.symm hne)
    have ih' := ih fun hm => h (by simp [hm])
    simp [takeUntil, List.isPrefixOf, hc, ih']

/-! ## Length facts: every scanner consumes at least one character on
success, and never returns a longer remainder.  These justify both the
sufficiency of the fuel and nom `many0`'s progress check. -/

theorem dropWhile_length_le (p : Char → Bool) :
    ∀ l : List Char, (l.dropWhile p).length ≤ l.length := by
  intro l
  induction l with
  | nil => simp
  | cons a l ih =>
    by_cases ha : p a = true
    · rw [List.dropWhile_cons]
      simp only [ha, if_true]
      exact Nat.le_succ_of_le ih
    · rw [List.dropWhile_cons]
      simp [ha]

theorem ms0_length_le (s : List Char) : (multispace0 s).length ≤ s.length :=
  dropWhile_length_le isMultispace s

theorem sp0_length_le (s : List Char) : (space0 s).length ≤ s.length :=
  dropWhile_length_le isSpaceTab s

theorem isNot_length {bad s r tok : List Char}
    (h : isNot bad s = some (r, tok)) : r.length < s.length := by
  simp only [isNot] at h
  split at h
  · exact absurd h (by simp)
  · next he =>
    have hne : (s.takeWhile fun c => !bad.contains c) ≠ [] := by
      intro hnil
      rw [hnil] at he
      exact he rfl
    have hlt := takeWhile_ne_nil_dropWhile_length hne
    have hr : r = s.dropWhile fun c => !bad.contains c := by
      injection h with h1
      injection h1 with h2 h3
      exact h2.symm
    rw [hr]
    exact hlt

theorem charP_length {c : Char} {s r : List Char} (h : charP c s = some r) :
    r.length < s.length := by
  cases s with
  | nil => exact absurd h (by simp [charP])
  | cons d t =>
    simp only [charP] at h
    split at h
    · injection h with h1
      rw [← h1]
      simp
    · exact absurd h (by simp)

theorem tagP_length_le {t s r : List Char} (h : tagP t s = some r) :
    r.length ≤ s.length := by
  simp only [tagP] at h
  split at h
  · injection h with h1
    rw [← h1]
    simp
  · exact absurd h (by simp)

theorem tagP_length_lt {t s r : List Char} (ht : t ≠ []) (h : tagP t s = some r) :
    r.length < s.length := by
  simp only [tagP] at h
  split at h
  · next hp =>
    have hle : t.length ≤ s.length := by
      have := List.isPrefixOf_iff_prefix.mp hp
      exact this.length_le
    have htpos : 0 < t.length := List.length_pos.mpr ht
    injection h with h1
    rw [← h1]
    simp only [List.length_drop]
    omega
  · exact absurd h (by simp)

theorem takeUntil_length_le {t : List Char} :
    ∀ {s r tok : List Char}, takeUntil t s = some (r, tok) → r.length ≤ s.length := by
  intro s
  induction s with
  | nil =>
    intro r tok h
    simp only [takeUntil] at h
    split at h
    · injection h with h1
      injection h1 with h2 h3
      rw [← h2]
    · exact absurd h (by simp)
  | cons c rest ih =>
    intro r tok h
    simp only [takeUntil] at h
    split at h
    · injection h with h1
      injection h1 with h2 h3
      rw [← h2]
    · revert h
      match hrec : takeUntil t rest with
      | none => intro h; exact absurd h (by simp)
      | some (rem, tok2) =>
        intro h
        injection h with h1
        injection h1 with h2 h3
        rw [← h2]
        have := ih hrec
        simp only [List.length_cons]
        omega

theorem optTag_length_le (t s : List Char) : (optTag t s).length ≤ s.length := by
  simp only [optTag]
  match htag : tagP t s with
  | none => exact Nat.le_refl _
  | some r => exact tagP_length_le htag

theorem optChar_length_le (c : Char) (s : List Char) :
    (optChar c s).1.length ≤ s.length := by
  simp only [optChar]
  match hc : charP c s with
  | none => exact Nat.le_refl _
  | some r => exact Nat.le_of_lt (charP_length hc)

theorem takeTill_length_le (p : Char → Bool) (s : List Char) :
    (takeTill p s).1.length ≤ s.length :=
  dropWhile_length_le _ s

/-! Scanner-level length facts. -/

theorem parse_comment_c_style_length {s r : List Char} {c : JailComment}
    (h : parse_comment_c_style s = some (r, c)) : r.length < s.length := by
  simp only [parse_comment_c_style] at h
  split at h
  · exact absurd h (by simp)
  · next s1 htag =>
    split at h
    · exact absurd h (by simp)
    · next s2 res huntil =>
      split at h
      · exact absurd h (by simp)
      · next s3 htag2 =>
        injection h with h1
        injection h1 with h2 h3
        subst h2
        have l1 := ms0_length_le s
        have l2 := tagP_length_lt (by simp) htag
        have l3 := takeUntil_length_le huntil
        have l4 := tagP_length_lt (by simp) htag2
        have l5 := ms0_length_le s3
        omega

theorem parse_comment_cpp_style_length {s r : List Char} {c : JailComment}
    (h : parse_comment_cpp_style s = some (r, c)) : r.length < s.length := by
  simp only [parse_comment_cpp_style] at h
  split at h
  · exact absurd h (by simp)
  · next s1 htag =>
    split at h
    · exact absurd h (by simp)
    · next s2 res huntil =>
      injection h with h1
      injection h1 with h2 h3
      subst h2
      have l1 := ms0_length_le s
      have l2 := tagP_length_lt (by simp) htag
      have l3 := takeUntil_length_le huntil
      have l5 := ms0_length_le s2
      omega

theorem parse_comment_shell_style_length {s r : List Char} {c : JailComment}
    (h : parse_comment_shell_style s = some (r, c)) : r.length < s.length := by
  simp only [parse_comment_shell_style] at h
  split at h
  · exact absurd h (by simp)
  · next s1 htag =>
    split at h
    · exact absurd h (by simp)
    · next s2 res huntil =>
      injection h with h1
      injection h1 with h2 h3
      subst h2
      have l1 := ms0_length_le s
      have l2 := tagP_length_lt (by simp) htag
      have l3 := takeUntil_length_le huntil
      have l5 := ms0_length_le s2
      omega

theorem parse_bool_param_no_value_length {s r : List Char} {p : JailParamBool}
    (h : parse_bool_param_no_value s = some (r, p)) : r.length < s.length := by
  simp only [parse_bool_param_no_value] at h
  split at h
  · exact absurd h (by simp)
  · next s1 name hnot =>
    split at h
    · exact absurd h (by simp)
    · split at h
      · exact absurd h (by simp)
      · next s2 hchar =>
        injection h with h1
        injection h1 with h2 h3
        subst h2
        have l1 := ms0_length_le s
        have l2 := isNot_length hnot
        have l3 := charP_length hchar
        have l4 := ms0_length_le s2
        omega

theorem parse_param_with_value_length {s r : List Char} {p : JailParamValue}
    (h : parse_param_with_value s = some (r, p)) : r.length < s.length := by
  simp only [parse_param_with_value] at h
  split at h
  · exact absurd h (by simp)
  · next s1 name hnot =>
    split at h
    · exact absurd h (by simp)
    · split at h
      · exact absurd h (by simp)
      · next s5 heq =>
        split at h
        · exact absurd h (by simp)
        · split at h
          · exact absurd h (by simp)
          · next s10 hsemi =>
            injection h with h1
            injection h1 with h2 h3
            subst h2
            have l1 := ms0_length_le s
            have l2 := isNot_length hnot
            have l3 := sp0_length_le s1
            have l4 := optChar_length_le '+' (space0 s1)
            have l5 := charP_length heq
            have l6 := sp0_length_le s5
            have l7 := optTag_length_le ['\"'] (space0 s5)
            have l8 := takeTill_length_le
              (fun ch => (['\"', ';', '\n']).contains ch) (optTag ['\"'] (space0 s5))
            have l9 := optTag_length_le ['\"']
              (takeTill (fun ch => (['\"', ';', '\n']).contains ch)
                (optTag ['\"'] (space0 s5))).1
            have l10 := charP_length hsemi
            have l11 := ms0_length_le s10
            omega

theorem parse_block_core_length
    {p : List Char → Option (List Char × List JailConf)} {s r : List Char}
    {e : JailConf}
    (hp : ∀ t u es, p t = some (u, es) → u.length ≤ t.length)
    (h : parse_block_core p s = some (r, e)) : r.length < s.length := by
  simp only [parse_block_core] at h
  split at h
  · exact absurd h (by simp)
  · next s1 name hnot =>
    split at h
    · exact absurd h (by simp)
    · split at h
      · exact absurd h (by simp)
      · next s5 hbrace =>
        split at h
        · exact absurd h (by simp)
        · next s7 params hrec =>
          split at h
          · exact absurd h (by simp)
          · next s9 hclose =>
            injection h with h1
            injection h1 with h2 h3
            subst h2
            have l1 := ms0_length_le s
            have l2 := isNot_length hnot
            have l3 := ms0_length_le s1
            have l4 := ms0_length_le (multispace0 s1)
            have l5 := charP_length hbrace
            have l6 := ms0_length_le s5
            have l7 := hp _ _ _ hrec
            have l8 := ms0_length_le s7
            have l9 := charP_length hclose
            have l10 := ms0_length_le s9
            omega

theorem parse_entry_core_length
    {p : List Char → Option (List Char × List JailConf)} {s s' : List Char}
    {e : JailConf}
    (hp : ∀ t u es, p t = some (u, es) → u.length ≤ t.length)
    (h : parse_entry_core p s = some (s', e)) : s'.length < s.length := by
  revert h
  simp only [parse_entry_core]
  cases hc1 : parse_comment_c_style s with
  | some v =>
    obtain ⟨r0, c0⟩ := v
    dsimp only
    intro h
    injection h with h1
    injection h1 with h2 h3
    subst h2
    exact parse_comment_c_style_length hc1
  | none =>
    dsimp only
    cases hc2 : parse_comment_cpp_style s with
    | some v =>
      obtain ⟨r0, c0⟩ := v
      dsimp only
      intro h
      injection h with h1
      injection h1 with h2 h3
      subst h2
      exact parse_comment_cpp_style_length hc2
    | none =>
      dsimp only
      cases hc3 : parse_comment_shell_style s with
      | some v =>
        obtain ⟨r0, c0⟩ := v
        dsimp only
        intro h
        injection h with h1
        injection h1 with h2 h3
        subst h2
        exact parse_comment_shell_style_length hc3
      | none =>
        dsimp only
        cases hc4 : parse_bool_param_no_value s with
        | some v =>
          obtain ⟨r0, c0⟩ := v
          dsimp only
          intro h
          injection h with h1
          injection h1 with h2 h3
          subst h2
          exact parse_bool_param_no_value_length hc4
        | none =>
          dsimp only
          cases hc5 : parse_param_with_value s with
          | some v =>
            obtain ⟨r0, c0⟩ := v
            dsimp only
            intro h
            injection h with h1
            injection h1 with h2 h3
            subst h2
            exact parse_param_with_value_length hc5
          | none =>
            dsimp only
            intro h
            exact parse_block_core_length hp h

theorem parse_block_core_congr
    {p1 p2 : List Char → Option (List Char × List JailConf)} {s : List Char}
    (hp : ∀ t, t.length < s.length → p1 t = p2 t) :
    parse_block_core p1 s = parse_block_core p2 s := by
  simp only [parse_block_core]
  cases hnot : isNot [' ', '\x7b', ';', '\n'] (multispace0 s) with
  | none => rfl
  | some v =>
    obtain ⟨s1, name⟩ := v
    dsimp only
    cases hnp : notP (isA [';', '\n'] (multispace0 s1)) with
    | none => rfl
    | some u =>
      dsimp only
      cases hch : charP '\x7b' (multispace0 (multispace0 s1)) with
      | none => rfl
      | some s5 =>
        dsimp only
        have hlen : (multispace0 s5).length < s.length := by
          have l1 := ms0_length_le s
          have l2 := isNot_length hnot
          have l3 := ms0_length_le s1
          have l4 := ms0_length_le (multispace0 s1)
          have l5 := charP_length hch
          have l6 := ms0_length_le s5
          omega
        rw [hp _ hlen]

theorem parse_entry_core_congr
    {p1 p2 : List Char → Option (List Char × List JailConf)} {s : List Char}
    (hp : ∀ t, t.length < s.length → p1 t = p2 t) :
    parse_entry_core p1 s = parse_entry_core p2 s := by
  simp only [parse_entry_core]
  cases parse_comment_c_style s with
  | some v => rfl
  | none =>
    cases parse_comment_cpp_style s with
    | some v => rfl
    | none =>
      cases parse_comment_shell_style s with
      | some v => rfl
      | none =>
        cases parse_bool_param_no_value s with
        | some v => rfl
        | none =>
          cases parse_param_with_value s with
          | some v => rfl
          | none => exact parse_block_core_congr hp

/-- Any successful run of the (fuelled) document parser leaves a remainder no
longer than its input. -/
theorem parse_input_fuel_length :
    ∀ f s rem es, parse_input_fuel f s = some (rem, es) → rem.length ≤ s.length := by
  intro f
  induction f with
  | zero =>
    intro s rem es h
    exact absurd h (by simp [parse_input_fuel])
  | succ f ih =>
    intro s rem es h
    simp only [parse_input_fuel] at h
    split at h
    · injection h with h1
      injection h1 with h2 h3
      subst h2
      exact Nat.le_refl _
    · next s' e hpec =>
      split at h
      · exact absurd h (by simp)
      · split at h
        · exact absurd h (by simp)
        · next rem2 es2 hrec =>
          injection h with h1
          injection h1 with h2 h3
          subst h2
          have hlt : s'.length < s.length :=
            parse_entry_core_length (fun t u es3 ht => ih t u es3 ht) hpec
          have := ih _ _ _ hrec
          omega

/-- The fuel is invisible: any two fuels above the input length give the same
result.  This is what makes the `length + 1` wrappers a faithful rendering of
the mutual recursion of src/lib.rs. -/
theorem parse_input_fuel_stable :
    ∀ f g s, s.length < f → s.length < g →
      parse_input_fuel f s = parse_input_fuel g s := by
  intro f
  induction f with
  | zero =>
    intro g s hf
    omega
  | succ f ih =>
    intro g s hf hg
    cases g with
    | zero => omega
    | succ g =>
      simp only [parse_input_fuel]
      have hagree : parse_entry_core (parse_input_fuel f) s =
          parse_entry_core (parse_input_fuel g) s :=
        parse_entry_core_congr fun t ht => ih g t (by omega) (by omega)
      rw [hagree]
      cases hpec : parse_entry_core (parse_input_fuel g) s with
      | none => rfl
      | some v =>
        obtain ⟨s', e⟩ := v
        have hlt : s'.length < s.length :=
          parse_entry_core_length
            (fun t u es3 ht => parse_input_fuel_length g t u es3 ht) hpec
        by_cases hss : s' = s
        · simp [hss]
        · simp only [if_neg hss]
          rw [ih g s' (by omega) (by omega)]

/-- On any input, the document parser succeeds (nom's `many0` cannot fail
here, because every alternative consumes input when it succeeds). -/
theorem parse_input_fuel_total :
    ∀ f s, s.length < f → ∃ rem es, parse_input_fuel f s = some (rem, es) := by
  intro f
  induction f with
  | zero =>
    intro s hf
    omega
  | succ f ih =>
    intro s hf
    simp only [parse_input_fuel]
    cases hpec : parse_entry_core (parse_input_fuel f) s with
    | none => exact ⟨s, [], rfl⟩
    | some v =>
      obtain ⟨s', e⟩ := v
      have hlt : s'.length < s.length :=
        parse_entry_core_length
          (fun t u es3 ht => parse_input_fuel_length f t u es3 ht) hpec
      have hne : s' ≠ s := fun he => by rw [he] at hlt; omega
      obtain ⟨rem, es, hrec⟩ := ih s' (by omega)
      refine ⟨rem, e :: es, ?_⟩
      dsimp only
      rw [if_neg hne, hrec]

/-- Successful single steps of `parse_entry` consume input. -/
theorem parse_entry_length {s s' : List Char} {e : JailConf}
    (h : parse_entry s = some (s', e)) : s'.length < s.length :=
  parse_entry_core_length
    (fun t u es ht => parse_input_fuel_length (t.length + 1) t u es ht) h

/-- The canonical one-step unfolding of `parse_input`, with no fuel in
sight: try one entry; on failure stop with the input as remainder; on
success recurse on the rest (nom `many0`, including its progress check). -/
theorem parse_input_eq (s : List Char) :
    parse_input s =
      match parse_entry s with
      | none => some (s, [])
      | some (s', e) =>
        if s' = s then none
        else
          match parse_input s' with
          | none => none
          | some (rem, es) => some (rem, e :: es) := by
  have hunfold : parse_input s =
      match parse_entry_core (parse_input_fuel s.length) s with
      | none => some (s, [])
      | some (s', e) =>
        if s' = s then none
        else
          match parse_input_fuel s.length s' with
          | none => none
          | some (rem, es) => some (rem, e :: es) := rfl
  rw [hunfold]
  have hagree : parse_entry_core (parse_input_fuel s.length) s = parse_entry s :=
    parse_entry_core_congr fun t ht =>
      parse_input_fuel_stable s.length (t.length + 1) t (by omega) (by omega)
  rw [hagree]
  cases hpe : parse_entry s with
  | none => rfl
  | some v =>
    obtain ⟨s', e⟩ := v
    have hlt : s'.length < s.length := parse_entry_length hpe
    by_cases hss : s' = s
    · simp [hss]
    · simp only [if_neg hss]
      rw [parse_input_fuel_stable s.length (s'.length + 1) s' (by omega) (by omega)]
      rfl

/-- Fact: `parse_input` succeeds on every input, with a remainder no longer than
the input. -/
theorem parse_input_total (s : List Char) :
    ∃ rem es, parse_input s = some (rem, es) :=
  parse_input_fuel_total (s.length + 1) s (by omega)

/-! ## Symbolic runs of the scanners

Hypothesis vocabulary: a *name* is what `is_not!(" +=;\n")` can capture
(non-empty, none of space/plus/equals/semicolon/newline).  `headNotWs`
additionally excludes a leading tab or carriage return, which the leading
`multispace0` of every scanner would silently strip off before the name is
read. -/

/-- First character (if any) is not in `multispace0`'s class. -/
def headNotWs : List Char → Bool
  | [] => true
  | c :: _ => !isMultispace c

/-- The name character set of the boolean/value scanners:
everything except space, `+`, `=`, `;`, newline (the `is_not!` set). -/
def ValidName (N : List Char) : Prop :=
  N ≠ [] ∧ (∀ c ∈ N, c ∉ [' ', '+', '=', ';', '\n']) ∧ headNotWs N = true

instance (N : List Char) : Decidable (ValidName N) := by
  unfold ValidName
  infer_instance

/-- The characters a captured value can contain: the `take_till!` of
src/lib.rs stops at `"`, `;` and newline, even inside quotes. -/
def ValidValue (V : List Char) : Prop :=
  ∀ c ∈ V, c ∉ ['\"', ';', '\n']

instance (V : List Char) : Decidable (ValidValue V) := by
  unfold ValidValue
  infer_instance

theorem ms0_of_validName {N : List Char} (h : ValidName N) (r : List Char) :
    multispace0 (N ++ r) = N ++ r := by
  obtain ⟨h1, h2, h3⟩ := h
  obtain ⟨n0, N1, rfl⟩ := List.exists_cons_of_ne_nil h1
  have hn0 : isMultispace n0 = false := by
    simpa [headNotWs] using h3
  rw [List.cons_append]
  exact ms0_cons_false hn0 _

/-- Successful boolean scan: `name;` followed by anything, with the trailing
`multispace0` eating whitespace after the `;`. -/
theorem parse_bool_spec {N : List Char} (hN : ValidName N) (r : List Char) :
    parse_bool_param_no_value (N ++ ';' :: r) = some (multispace0 r, ⟨N⟩) := by
  obtain ⟨h1, h2, h3⟩ := hN
  have e1 : multispace0 (N ++ ';' :: r) = N ++ ';' :: r :=
    ms0_of_validName ⟨h1, h2, h3⟩ _
  have e2 : isNot [' ', '+', '=', ';', '\n'] (N ++ ';' :: r) = some (';' :: r, N) :=
    isNot_spec N ';' r h2 h1 (by simp)
  have e3 : notP (isA [' ', '+', '=', '\n'] (';' :: r)) = some () :=
    notP_of_none (isA_none_head (by simp) r)
  simp only [parse_bool_param_no_value, e1, e2, e3, charP_eq]

/-- The boolean scanner's lookahead rejection: after the name, a character
from `is_a!(" +=\n")`'s set makes `not!` fail. -/
theorem parse_bool_reject {N : List Char} (hN : ValidName N) {d : Char}
    (hd : d ∈ [' ', '+', '=', '\n']) (r : List Char) :
    parse_bool_param_no_value (N ++ d :: r) = none := by
  obtain ⟨h1, h2, h3⟩ := hN
  have e1 : multispace0 (N ++ d :: r) = N ++ d :: r :=
    ms0_of_validName ⟨h1, h2, h3⟩ _
  have hd' : d ∈ [' ', '+', '=', ';', '\n'] := by
    simp only [List.mem_cons] at hd ⊢
    tauto
  have e2 : isNot [' ', '+', '=', ';', '\n'] (N ++ d :: r) = some (d :: r, N) :=
    isNot_spec N d r h2 h1 hd'
  have e3 : notP (isA [' ', '+', '=', '\n'] (d :: r)) = none :=
    notP_isA_head hd r
  simp only [parse_bool_param_no_value, e1, e2, e3]

/-- The value predicate of `take_till!` in src/lib.rs. -/
theorem takeTill_value_pred_false {V : List Char} (hV : ValidValue V) :
    ∀ c ∈ V, ((['\"', ';', '\n']).contains c) = false := by
  intro c hc
  have := hV c hc
  simpa using this

/-- Shared tail of the value scanner: from the position right after the
(optional) spaces following `=`, a quoted value (both quotes present)
followed by `;` succeeds. -/
theorem parse_value_spec_eq {N V : List Char} (hN : ValidName N) (hV : ValidValue V)
    (r : List Char) :
    parse_param_with_value (N ++ ' ' :: '=' :: ' ' :: '\"' :: (V ++ '\"' :: ';' :: r)) =
      some (multispace0 r, ⟨N, V, false⟩) := by
  obtain ⟨h1, h2, h3⟩ := hN
  have e1 := ms0_of_validName ⟨h1, h2, h3⟩ (' ' :: '=' :: ' ' :: '\"' :: (V ++ '\"' :: ';' :: r))
  have e2 : isNot [' ', '+', '=', ';', '\n']
      (N ++ ' ' :: '=' :: ' ' :: '\"' :: (V ++ '\"' :: ';' :: r)) =
      some (' ' :: '=' :: ' ' :: '\"' :: (V ++ '\"' :: ';' :: r), N) :=
    isNot_spec N ' ' _ h2 h1 (by simp)
  have e3 : notP (isA [';', '\n'] (' ' :: '=' :: ' ' :: '\"' :: (V ++ '\"' :: ';' :: r))) =
      some () := notP_of_none (isA_none_head (by simp) _)
  have e4 : space0 (' ' :: '=' :: ' ' :: '\"' :: (V ++ '\"' :: ';' :: r)) =
      '=' :: ' ' :: '\"' :: (V ++ '\"' :: ';' :: r) := by
    rw [sp0_cons_true (by simp [isSpaceTab])]
    exact sp0_cons_false (by simp [isSpaceTab]) _
  have e5 : optChar '+' ('=' :: ' ' :: '\"' :: (V ++ '\"' :: ';' :: r)) =
      ('=' :: ' ' :: '\"' :: (V ++ '\"' :: ';' :: r), false) :=
    optChar_miss (by simp) _
  have e6 : space0 (' ' :: '\"' :: (V ++ '\"' :: ';' :: r)) =
      '\"' :: (V ++ '\"' :: ';' :: r) := by
    rw [sp0_cons_true (by simp [isSpaceTab])]
    exact sp0_cons_false (by simp [isSpaceTab]) _
  have e7 : takeTill (fun ch => (['\"', ';', '\n']).contains ch) (V ++ '\"' :: ';' :: r) =
      ('\"' :: ';' :: r, V) :=
    takeTill_spec V '\"' _ (takeTill_value_pred_false hV) (by simp)
  have e8 : notP (isA ['\n'] (';' :: r)) = some () :=
    notP_of_none (isA_none_head (by simp) _)
  simp only [parse_param_with_value, e1, e2, e3, e4, e5, charP_eq, e6,
    optTag_quote_hit, e7, e8, charP_eq]

/-- Successful value scan with the append marker: `name += "value";`. -/
theorem parse_value_spec_append {N V : List Char} (hN : ValidName N)
    (hV : ValidValue V) (r : List Char) :
    parse_param_with_value
        (N ++ ' ' :: '+' :: '=' :: ' ' :: '\"' :: (V ++ '\"' :: ';' :: r)) =
      some (multispace0 r, ⟨N, V, true⟩) := by
  obtain ⟨h1, h2, h3⟩ := hN
  have e1 := ms0_of_validName ⟨h1, h2, h3⟩
    (' ' :: '+' :: '=' :: ' ' :: '\"' :: (V ++ '\"' :: ';' :: r))
  have e2 : isNot [' ', '+', '=', ';', '\n']
      (N ++ ' ' :: '+' :: '=' :: ' ' :: '\"' :: (V ++ '\"' :: ';' :: r)) =
      some (' ' :: '+' :: '=' :: ' ' :: '\"' :: (V ++ '\"' :: ';' :: r), N) :=
    isNot_spec N ' ' _ h2 h1 (by simp)
  have e3 : notP (isA [';', '\n']
      (' ' :: '+' :: '=' :: ' ' :: '\"' :: (V ++ '\"' :: ';' :: r))) = some () :=
    notP_of_none (isA_none_head (by simp) _)
  have e4 : space0 (' ' :: '+' :: '=' :: ' ' :: '\"' :: (V ++ '\"' :: ';' :: r)) =
      '+' :: '=' :: ' ' :: '\"' :: (V ++ '\"' :: ';' :: r) := by
    rw [sp0_cons_true (by simp [isSpaceTab])]
    exact sp0_cons_false (by simp [isSpaceTab]) _
  have e5 : optChar '+' ('+' :: '=' :: ' ' :: '\"' :: (V ++ '\"' :: ';' :: r)) =
      ('=' :: ' ' :: '\"' :: (V ++ '\"' :: ';' :: r), true) := optChar_hit '+' _
  have e6 : space0 (' ' :: '\"' :: (V ++ '\"' :: ';' :: r)) =
      '\"' :: (V ++ '\"' :: ';' :: r) := by
    rw [sp0_cons_true (by simp [isSpaceTab])]
    exact sp0_cons_false (by simp [isSpaceTab]) _
  have e7 : takeTill (fun ch => (['\"', ';', '\n']).contains ch) (V ++ '\"' :: ';' :: r) =
      ('\"' :: ';' :: r, V) :=
    takeTill_spec V '\"' _ (takeTill_value_pred_false hV) (by simp)
  have e8 : notP (isA ['\n'] (';' :: r)) = some () :=
    notP_of_none (isA_none_head (by simp) _)
  simp only [parse_param_with_value, e1, e2, e3, e4, e5, charP_eq, e6,
    optTag_quote_hit, e7, e8]

/-- A space between `+` and `=` kills the value scan: the `+` is consumed by
`opt!(char!('+'))` and then `char!('=')` sees the space. -/
theorem parse_value_reject_plus_space {N : List Char} (hN : ValidName N)
    (r : List Char) :
    parse_param_with_value (N ++ ' ' :: '+' :: ' ' :: r) = none := by
  obtain ⟨h1, h2, h3⟩ := hN
  have e1 := ms0_of_validName ⟨h1, h2, h3⟩ (' ' :: '+' :: ' ' :: r)
  have e2 : isNot [' ', '+', '=', ';', '\n'] (N ++ ' ' :: '+' :: ' ' :: r) =
      some (' ' :: '+' :: ' ' :: r, N) :=
    isNot_spec N ' ' _ h2 h1 (by simp)
  have e3 : notP (isA [';', '\n'] (' ' :: '+' :: ' ' :: r)) = some () :=
    notP_of_none (isA_none_head (by simp) _)
  have e4 : space0 (' ' :: '+' :: ' ' :: r) = '+' :: ' ' :: r := by
    rw [sp0_cons_true (by simp [isSpaceTab])]
    exact sp0_cons_false (by simp [isSpaceTab]) _
  have e5 : optChar '+' ('+' :: ' ' :: r) = (' ' :: r, true) := optChar_hit '+' _
  have e6 : charP '=' (' ' :: r) = none := charP_ne (by simp) r
  simp only [parse_param_with_value, e1, e2, e3, e4, e5, e6]

/-- Unbalanced quotes, opening only: `name = "value;` still succeeds with the
plain value (the closing `opt_res!(tag!("\""))` simply does not fire). -/
theorem parse_value_spec_noclose {N V : List Char} (hN : ValidName N)
    (hV : ValidValue V) (r : List Char) :
    parse_param_with_value (N ++ ' ' :: '=' :: ' ' :: '\"' :: (V ++ ';' :: r)) =
      some (multispace0 r, ⟨N, V, false⟩) := by
  obtain ⟨h1, h2, h3⟩ := hN
  have e1 := ms0_of_validName ⟨h1, h2, h3⟩ (' ' :: '=' :: ' ' :: '\"' :: (V ++ ';' :: r))
  have e2 : isNot [' ', '+', '=', ';', '\n']
      (N ++ ' ' :: '=' :: ' ' :: '\"' :: (V ++ ';' :: r)) =
      some (' ' :: '=' :: ' ' :: '\"' :: (V ++ ';' :: r), N) :=
    isNot_spec N ' ' _ h2 h1 (by simp)
  have e3 : notP (isA [';', '\n'] (' ' :: '=' :: ' ' :: '\"' :: (V ++ ';' :: r))) =
      some () := notP_of_none (isA_none_head (by simp) _)
  have e4 : space0 (' ' :: '=' :: ' ' :: '\"' :: (V ++ ';' :: r)) =
      '=' :: ' ' :: '\"' :: (V ++ ';' :: r) := by
    rw [sp0_cons_true (by simp [isSpaceTab])]
    exact sp0_cons_false (by simp [isSpaceTab]) _
  have e5 : optChar '+' ('=' :: ' ' :: '\"' :: (V ++ ';' :: r)) =
      ('=' :: ' ' :: '\"' :: (V ++ ';' :: r), false) := optChar_miss (by simp) _
  have e6 : space0 (' ' :: '\"' :: (V ++ ';' :: r)) = '\"' :: (V ++ ';' :: r) := by
    rw [sp0_cons_true (by simp [isSpaceTab])]
    exact sp0_cons_false (by simp [isSpaceTab]) _
  have e7 : takeTill (fun ch => (['\"', ';', '\n']).contains ch) (V ++ ';' :: r) =
      (';' :: r, V) :=
    takeTill_spec V ';' _ (takeTill_value_pred_false hV) (by simp)
  have e9 : optTag ['\"'] (';' :: r) = ';' :: r := optTag_quote_miss (by simp) r
  have e8 : notP (isA ['\n'] (';' :: r)) = some () :=
    notP_of_none (isA_none_head (by simp) _)
  simp only [parse_param_with_value, e1, e2, e3, e4, e5, charP_eq, e6,
    optTag_quote_hit, e7, e9, e8]

/-- First character (if any) is not a space or tab (outside `space0`'s
class), so `space0` before the value leaves it intact. -/
def headNotSpaceTab : List Char → Bool
  | [] => true
  | c :: _ => !isSpaceTab c

theorem sp0_headNotSpaceTab {r : List Char} (h : headNotSpaceTab r = true) :
    space0 r = r := by
  cases r with
  | nil => rfl
  | cons c t =>
    have : isSpaceTab c = false := by simpa [headNotSpaceTab] using h
    exact sp0_cons_false this t

/-- Unbalanced quotes, closing only: `name = value";` also succeeds with the
plain value, provided the value does not begin with a space or tab (which
`space0` would strip).  For an empty value the lone quote is taken as an
opening one; either way the captured value is `V`. -/
theorem parse_value_spec_noopen {N V : List Char} (hN : ValidName N)
    (hV : ValidValue V) (hV0 : headNotSpaceTab V = true) (r : List Char) :
    parse_param_with_value (N ++ ' ' :: '=' :: ' ' :: (V ++ '\"' :: ';' :: r)) =
      some (multispace0 r, ⟨N, V, false⟩) := by
  obtain ⟨h1, h2, h3⟩ := hN
  have e1 := ms0_of_validName ⟨h1, h2, h3⟩ (' ' :: '=' :: ' ' :: (V ++ '\"' :: ';' :: r))
  have e2 : isNot [' ', '+', '=', ';', '\n']
      (N ++ ' ' :: '=' :: ' ' :: (V ++ '\"' :: ';' :: r)) =
      some (' ' :: '=' :: ' ' :: (V ++ '\"' :: ';' :: r), N) :=
    isNot_spec N ' ' _ h2 h1 (by simp)
  have e3 : notP (isA [';', '\n'] (' ' :: '=' :: ' ' :: (V ++ '\"' :: ';' :: r))) =
      some () := notP_of_none (isA_none_head (by simp) _)
  have e4 : space0 (' ' :: '=' :: ' ' :: (V ++ '\"' :: ';' :: r)) =
      '=' :: ' ' :: (V ++ '\"' :: ';' :: r) := by
    rw [sp0_cons_true (by simp [isSpaceTab])]
    exact sp0_cons_false (by simp [isSpaceTab]) _
  have e5 : optChar '+' ('=' :: ' ' :: (V ++ '\"' :: ';' :: r)) =
      ('=' :: ' ' :: (V ++ '\"' :: ';' :: r), false) := optChar_miss (by simp) _
  have e6 : space0 (' ' :: (V ++ '\"' :: ';' :: r)) = V ++ '\"' :: ';' :: r := by
    rw [sp0_cons_true (by simp [isSpaceTab])]
    cases V with
    | nil => exact sp0_cons_false (by simp [isSpaceTab]) _
    | cons v0 V1 =>
      rw [List.cons_append]
      refine sp0_cons_false ?_ _
      simpa [headNotSpaceTab] using hV0
  have e8 : notP (isA ['\n'] (';' :: r)) = some () :=
    notP_of_none (isA_none_head (by simp) _)
  have e7 : takeTill (fun ch => (['\"', ';', '\n']).contains ch) (V ++ '\"' :: ';' :: r) =
      ('\"' :: ';' :: r, V) :=
    takeTill_spec V '\"' _ (takeTill_value_pred_false hV) (by simp)
  cases V with
  | nil =>
    have e9 : takeTill (fun ch => (['\"', ';', '\n']).contains ch) (';' :: r) =
        (';' :: r, []) := takeTill_spec [] ';' _ (by simp) (by simp)
    have e10 : optTag ['\"'] (';' :: r) = ';' :: r := optTag_quote_miss (by simp) r
    simp only [List.nil_append] at e1 e2 e3 e4 e5 e6 e7 ⊢
    simp only [parse_param_with_value, e1, e2, e3, e4, e5, charP_eq, e6,
      optTag_quote_hit, e9, e10, e8]
  | cons v0 V1 =>
    have hv0 : v0 ≠ '\"' := by
      have := hV v0 (by simp)
      simp only [List.mem_cons, List.not_mem_nil] at this
      tauto
    have e10 : optTag ['\"'] ((v0 :: V1) ++ '\"' :: ';' :: r) =
        (v0 :: V1) ++ '\"' :: ';' :: r := by
      rw [List.cons_append]
      exact optTag_quote_miss hv0 _
    simp only [parse_param_with_value, e1, e2, e3, e4, e5, charP_eq, e6, e10,
      e7, optTag_quote_hit, e8]

/-- A newline right after the name kills the value scan
(`not!(is_a!(";\n"))`). -/
theorem parse_value_reject_nl_after_name {N : List Char} (hN : ValidName N)
    (r : List Char) :
    parse_param_with_value (N ++ '\n' :: r) = none := by
  obtain ⟨h1, h2, h3⟩ := hN
  have e1 := ms0_of_validName ⟨h1, h2, h3⟩ ('\n' :: r)
  have e2 : isNot [' ', '+', '=', ';', '\n'] (N ++ '\n' :: r) =
      some ('\n' :: r, N) := isNot_spec N '\n' r h2 h1 (by simp)
  have e3 : notP (isA [';', '\n'] ('\n' :: r)) = none :=
    notP_isA_head (by simp) r
  simp only [parse_param_with_value, e1, e2, e3]

/-- A literal newline inside a quoted value, before the terminating `;`,
kills the value scan (`take_till!` stops at it and `not!(is_a!("\n"))`
then fails). -/
theorem parse_value_reject_nl_in_quoted {N V : List Char} (hN : ValidName N)
    (hV : ValidValue V) (r : List Char) :
    parse_param_with_value (N ++ ' ' :: '=' :: ' ' :: '\"' :: (V ++ '\n' :: r)) =
      none := by
  obtain ⟨h1, h2, h3⟩ := hN
  have e1 := ms0_of_validName ⟨h1, h2, h3⟩ (' ' :: '=' :: ' ' :: '\"' :: (V ++ '\n' :: r))
  have e2 : isNot [' ', '+', '=', ';', '\n']
      (N ++ ' ' :: '=' :: ' ' :: '\"' :: (V ++ '\n' :: r)) =
      some (' ' :: '=' :: ' ' :: '\"' :: (V ++ '\n' :: r), N) :=
    isNot_spec N ' ' _ h2 h1 (by simp)
  have e3 : notP (isA [';', '\n'] (' ' :: '=' :: ' ' :: '\"' :: (V ++ '\n' :: r))) =
      some () := notP_of_none (isA_none_head (by simp) _)
  have e4 : space0 (' ' :: '=' :: ' ' :: '\"' :: (V ++ '\n' :: r)) =
      '=' :: ' ' :: '\"' :: (V ++ '\n' :: r) := by
    rw [sp0_cons_true (by simp [isSpaceTab])]
    exact sp0_cons_false (by simp [isSpaceTab]) _
  have e5 : optChar '+' ('=' :: ' ' :: '\"' :: (V ++ '\n' :: r)) =
      ('=' :: ' ' :: '\"' :: (V ++ '\n' :: r), false) := optChar_miss (by simp) _
  have e6 : space0 (' ' :: '\"' :: (V ++ '\n' :: r)) = '\"' :: (V ++ '\n' :: r) := by
    rw [sp0_cons_true (by simp [isSpaceTab])]
    exact sp0_cons_false (by simp [isSpaceTab]) _
  have e7 : takeTill (fun ch => (['\"', ';', '\n']).contains ch) (V ++ '\n' :: r) =
      ('\n' :: r, V) :=
    takeTill_spec V '\n' _ (takeTill_value_pred_false hV) (by simp)
  have e9 : optTag ['\"'] ('\n' :: r) = '\n' :: r := optTag_quote_miss (by simp) r
  have e8 : notP (isA ['\n'] ('\n' :: r)) = none := notP_isA_head (by simp) r
  simp only [parse_param_with_value, e1, e2, e3, e4, e5, charP_eq, e6,
    optTag_quote_hit, e7, e9, e8]

/-- A `{` after the name (block syntax) kills the value scan: `char!('=')`
fails on it. -/
theorem parse_value_reject_brace {N : List Char} (hN : ValidName N)
    (r : List Char) :
    parse_param_with_value (N ++ ' ' :: '\x7b' :: r) = none := by
  obtain ⟨h1, h2, h3⟩ := hN
  have e1 := ms0_of_validName ⟨h1, h2, h3⟩ (' ' :: '\x7b' :: r)
  have e2 : isNot [' ', '+', '=', ';', '\n'] (N ++ ' ' :: '\x7b' :: r) =
      some (' ' :: '\x7b' :: r, N) := isNot_spec N ' ' _ h2 h1 (by simp)
  have e3 : notP (isA [';', '\n'] (' ' :: '\x7b' :: r)) = some () :=
    notP_of_none (isA_none_head (by simp) _)
  have e4 : space0 (' ' :: '\x7b' :: r) = '\x7b' :: r := by
    rw [sp0_cons_true (by simp [isSpaceTab])]
    exact sp0_cons_false (by simp [isSpaceTab]) _
  have e5 : optChar '+' ('\x7b' :: r) = ('\x7b' :: r, false) :=
    optChar_miss (by simp) _
  have e6 : charP '=' ('\x7b' :: r) = none := charP_ne (by simp) r
  simp only [parse_param_with_value, e1, e2, e3, e4, e5, e6]

/-! ## Symbolic runs of the comment scanners -/

theorem parse_cpp_spec {t : List Char} (h : '\n' ∉ t) (r : List Char) :
    parse_comment_cpp_style ('/' :: '/' :: (t ++ '\n' :: r)) =
      some (multispace0 r, ⟨t, .CPP⟩) := by
  have e1 : multispace0 ('/' :: '/' :: (t ++ '\n' :: r)) =
      '/' :: '/' :: (t ++ '\n' :: r) := ms0_cons_false (by simp [isMultispace]) _
  have e2 : tagP ['/', '/'] ('/' :: '/' :: (t ++ '\n' :: r)) =
      some (t ++ '\n' :: r) := by simp [tagP, List.isPrefixOf]
  have e3 := takeUntil_nl h r
  have e4 : multispace0 ('\n' :: r) = multispace0 r := by
    simp [multispace0, List.dropWhile_cons, isMultispace]
  simp only [parse_comment_cpp_style, e1, e2, e3, e4]

theorem parse_cpp_none {t : List Char} (h : '\n' ∉ t) :
    parse_comment_cpp_style ('/' :: '/' :: t) = none := by
  have e1 : multispace0 ('/' :: '/' :: t) = '/' :: '/' :: t :=
    ms0_cons_false (by simp [isMultispace]) _
  have e2 : tagP ['/', '/'] ('/' :: '/' :: t) = some t := by
    simp [tagP, List.isPrefixOf]
  have e3 := takeUntil_nl_none h
  simp only [parse_comment_cpp_style, e1, e2, e3]

theorem parse_shell_spec {t : List Char} (h : '\n' ∉ t) (r : List Char) :
    parse_comment_shell_style ('#' :: (t ++ '\n' :: r)) =
      some (multispace0 r, ⟨t, .Shell⟩) := by
  have e1 : multispace0 ('#' :: (t ++ '\n' :: r)) = '#' :: (t ++ '\n' :: r) :=
    ms0_cons_false (by simp [isMultispace]) _
  have e2 : tagP ['#'] ('#' :: (t ++ '\n' :: r)) = some (t ++ '\n' :: r) := by
    simp [tagP, List.isPrefixOf]
  have e3 := takeUntil_nl h r
  have e4 : multispace0 ('\n' :: r) = multispace0 r := by
    simp [multispace0, List.dropWhile_cons, isMultispace]
  simp only [parse_comment_shell_style, e1, e2, e3, e4]

theorem parse_shell_none {t : List Char} (h : '\n' ∉ t) :
    parse_comment_shell_style ('#' :: t) = none := by
  have e1 : multispace0 ('#' :: t) = '#' :: t :=
    ms0_cons_false (by simp [isMultispace]) _
  have e2 : tagP ['#'] ('#' :: t) = some t := by
    simp [tagP, List.isPrefixOf]
  have e3 := takeUntil_nl_none h
  simp only [parse_comment_shell_style, e1, e2, e3]

/-- The three comment scanners fail on any input whose first character is
neither whitespace (which they would skip) nor `/` nor `#`. -/
theorem parse_comments_fail_head {a : Char} (hws : isMultispace a = false)
    (hsl : a ≠ '/') (hsh : a ≠ '#') (r : List Char) :
    parse_comment_c_style (a :: r) = none ∧
      parse_comment_cpp_style (a :: r) = none ∧
      parse_comment_shell_style (a :: r) = none := by
  have e1 : multispace0 (a :: r) = a :: r := ms0_cons_false hws r
  have hsl' : ('/' == a) = false := beq_eq_false_iff_ne.mpr (Ne.symm hsl)
  have hsh' : ('#' == a) = false := beq_eq_false_iff_ne.mpr (Ne.symm hsh)
  refine ⟨?_, ?_, ?_⟩
  · have e2 : tagP ['/', '*'] (a :: r) = none := by
      simp [tagP, List.isPrefixOf, hsl']
    simp only [parse_comment_c_style, e1, e2]
  · have e2 : tagP ['/', '/'] (a :: r) = none := by
      simp [tagP, List.isPrefixOf, hsl']
    simp only [parse_comment_cpp_style, e1, e2]
  · have e2 : tagP ['#'] (a :: r) = none := by
      simp [tagP, List.isPrefixOf, hsh']
    simp only [parse_comment_shell_style, e1, e2]

theorem ms0_cons_true {c : Char} (h : isMultispace c = true) (r : List Char) :
    multispace0 (c :: r) = multispace0 r := by
  simp [multispace0, List.dropWhile_cons, h]

theorem ms0_headNotWs {r : List Char} (h : headNotWs r = true) :
    multispace0 r = r := by
  cases r with
  | nil => rfl
  | cons c t =>
    have : isMultispace c = false := by simpa [headNotWs] using h
    exact ms0_cons_false this t

/-- The block-name character set of `parse_block`:
everything except space, `{`, `;`, newline (its `is_not!` set). -/
def ValidBlockName (N : List Char) : Prop :=
  N ≠ [] ∧ (∀ c ∈ N, c ∉ [' ', '\x7b', ';', '\n']) ∧ headNotWs N = true

instance (N : List Char) : Decidable (ValidBlockName N) := by
  unfold ValidBlockName
  infer_instance

theorem ms0_of_validBlockName {N : List Char} (h : ValidBlockName N)
    (r : List Char) : multispace0 (N ++ r) = N ++ r := by
  obtain ⟨h1, h2, h3⟩ := h
  obtain ⟨n0, N1, rfl⟩ := List.exists_cons_of_ne_nil h1
  have hn0 : isMultispace n0 = false := by
    simpa [headNotWs] using h3
  rw [List.cons_append]
  exact ms0_cons_false hn0 _

/-- Symbolic run of the block parser over `name { ...`: after the header it
hands the interior (with its leading whitespace stripped) to the document
parser `p` and demands a closing `}`. -/
theorem parse_block_core_step {p : List Char → Option (List Char × List JailConf)}
    {N : List Char} (hN : ValidBlockName N) {r : List Char}
    (hr : headNotWs r = true) :
    parse_block_core p (N ++ ' ' :: '\x7b' :: ' ' :: r) =
      match p r with
      | none => none
      | some (s7, params) =>
        match charP '\x7d' (multispace0 s7) with
        | none => none
        | some s9 => some (multispace0 s9, .Block N params) := by
  obtain ⟨h1, h2, h3⟩ := hN
  have e1 := ms0_of_validBlockName ⟨h1, h2, h3⟩ (' ' :: '\x7b' :: ' ' :: r)
  have e2 : isNot [' ', '\x7b', ';', '\n'] (N ++ ' ' :: '\x7b' :: ' ' :: r) =
      some (' ' :: '\x7b' :: ' ' :: r, N) := isNot_spec N ' ' _ h2 h1 (by simp)
  have e3 : multispace0 (' ' :: '\x7b' :: ' ' :: r) = '\x7b' :: ' ' :: r := by
    rw [ms0_cons_true (by simp [isMultispace])]
    exact ms0_cons_false (by simp [isMultispace]) _
  have e4 : notP (isA [';', '\n'] ('\x7b' :: ' ' :: r)) = some () :=
    notP_of_none (isA_none_head (by simp) _)
  have e5 : multispace0 ('\x7b' :: ' ' :: r) = '\x7b' :: ' ' :: r :=
    ms0_cons_false (by simp [isMultispace]) _
  have e6 : multispace0 (' ' :: r) = r := by
    rw [ms0_cons_true (by simp [isMultispace])]
    exact ms0_headNotWs hr
  simp only [parse_block_core, e1, e2, e3, e4, e5, charP_eq, e6]

/-- When the three comment scanners, the boolean scanner and the value
scanner all fail, one `alt!` step is exactly the block parser. -/
theorem parse_entry_core_alt_block {p : List Char → Option (List Char × List JailConf)}
    {s : List Char}
    (h1 : parse_comment_c_style s = none)
    (h2 : parse_comment_cpp_style s = none)
    (h3 : parse_comment_shell_style s = none)
    (h4 : parse_bool_param_no_value s = none)
    (h5 : parse_param_with_value s = none) :
    parse_entry_core p s = parse_block_core p s := by
  simp only [parse_entry_core, h1, h2, h3, h4, h5]

/-- When the three comment scanners fail and the boolean scanner succeeds,
one `alt!` step returns its boolean parameter. -/
theorem parse_entry_core_alt_bool {p : List Char → Option (List Char × List JailConf)}
    {s r : List Char} {b : JailParamBool}
    (h1 : parse_comment_c_style s = none)
    (h2 : parse_comment_cpp_style s = none)
    (h3 : parse_comment_shell_style s = none)
    (h4 : parse_bool_param_no_value s = some (r, b)) :
    parse_entry_core p s = some (r, .ParamBool b) := by
  simp only [parse_entry_core, h1, h2, h3, h4]

theorem dropWhile_append_ne_nil {p : Char → Bool} :
    ∀ {l : List Char}, l.dropWhile p ≠ [] →
      ∀ r : List Char, (l ++ r).dropWhile p = l.dropWhile p ++ r := by
  intro l
  induction l with
  | nil => intro h; exact absurd rfl h
  | cons a l ih =>
    intro h r
    by_cases ha : p a = true
    · have hred : List.dropWhile p (a :: l) = List.dropWhile p l := by
        simp [List.dropWhile_cons, ha]
      rw [List.cons_append, List.dropWhile_cons]
      simp only [ha, if_true]
      rw [hred]
      rw [hred] at h
      exact ih h r
    · rw [List.cons_append, List.dropWhile_cons, List.dropWhile_cons]
      simp [ha]

/-- A literal newline inside an unquoted value, before the terminating `;`,
kills the value scan. -/
theorem parse_value_reject_nl_unquoted {N V : List Char} (hN : ValidName N)
    (hV : ValidValue V) (hV0 : headNotSpaceTab V = true) (r : List Char) :
    parse_param_with_value (N ++ ' ' :: '=' :: ' ' :: (V ++ '\n' :: r)) = none := by
  obtain ⟨h1, h2, h3⟩ := hN
  have e1 := ms0_of_validName ⟨h1, h2, h3⟩ (' ' :: '=' :: ' ' :: (V ++ '\n' :: r))
  have e2 : isNot [' ', '+', '=', ';', '\n'] (N ++ ' ' :: '=' :: ' ' :: (V ++ '\n' :: r)) =
      some (' ' :: '=' :: ' ' :: (V ++ '\n' :: r), N) :=
    isNot_spec N ' ' _ h2 h1 (by simp)
  have e3 : notP (isA [';', '\n'] (' ' :: '=' :: ' ' :: (V ++ '\n' :: r))) = some () :=
    notP_of_none (isA_none_head (by simp) _)
  have e4 : space0 (' ' :: '=' :: ' ' :: (V ++ '\n' :: r)) =
      '=' :: ' ' :: (V ++ '\n' :: r) := by
    rw [sp0_cons_true (by simp [isSpaceTab])]
    exact sp0_cons_false (by simp [isSpaceTab]) _
  have e5 : optChar '+' ('=' :: ' ' :: (V ++ '\n' :: r)) =
      ('=' :: ' ' :: (V ++ '\n' :: r), false) := optChar_miss (by simp) _
  have e6 : space0 (' ' :: (V ++ '\n' :: r)) = V ++ '\n' :: r := by
    rw [sp0_cons_true (by simp [isSpaceTab])]
    cases V with
    | nil => exact sp0_cons_false (by simp [isSpaceTab]) _
    | cons v0 V1 =>
      rw [List.cons_append]
      refine sp0_cons_false ?_ _
      simpa [headNotSpaceTab] using hV0
  have e7 : takeTill (fun ch => (['\"', ';', '\n']).contains ch) (V ++ '\n' :: r) =
      ('\n' :: r, V) :=
    takeTill_spec V '\n' _ (takeTill_value_pred_false hV) (by simp)
  have e9 : optTag ['\"'] ('\n' :: r) = '\n' :: r := optTag_quote_miss (by simp) r
  have e8 : notP (isA ['\n'] ('\n' :: r)) = none := notP_isA_head (by simp) r
  cases V with
  | nil =>
    simp only [List.nil_append] at e1 e2 e3 e4 e5 e6 e7 ⊢
    simp only [parse_param_with_value, e1, e2, e3, e4, e5, charP_eq, e6, e9, e7, e8]
  | cons v0 V1 =>
    have hv0 : v0 ≠ '\"' := by
      have := hV v0 (by simp)
      simp only [List.mem_cons, List.not_mem_nil] at this
      tauto
    have e10 : optTag ['\"'] ((v0 :: V1) ++ '\n' :: r) = (v0 :: V1) ++ '\n' :: r := by
      rw [List.cons_append]
      exact optTag_quote_miss hv0 _
    simp only [parse_param_with_value, e1, e2, e3, e4, e5, charP_eq, e6, e10,
      e7, e9, e8]

/-! ## The claims -/

/-- Claim C8 (confirmed).  A newline between a name and its terminating `;`
makes both the boolean scanner and the value scanner fail: for every name
over the name character set (space, `+`, `=`, `;`, newline excluded), the
input `name\n;` parses as neither statement kind.  More generally, a
literal newline inside a value statement before its `;` - quoted or
unquoted - makes the value scanner fail rather than swallow the following
lines. -/
theorem C8_newline_rejection :
    (∀ N : List Char, (∀ c ∈ N, c ∉ [' ', '+', '=', ';', '\n']) →
      parse_bool_param_no_value (N ++ '\n' :: [';']) = none ∧
        parse_param_with_value (N ++ '\n' :: [';']) = none) ∧
    (∀ N V r, ValidName N → ValidValue V →
      parse_param_with_value (N ++ ' ' :: '=' :: ' ' :: '\"' :: (V ++ '\n' :: r)) =
          none ∧
        (headNotSpaceTab V = true →
          parse_param_with_value (N ++ ' ' :: '=' :: ' ' :: (V ++ '\n' :: r)) =
            none)) := by
  constructor
  · intro N hch
    rcases dropWhile_nil_or_head isMultispace N with hnil | ⟨n0, N1, hcons, hn0⟩
    · -- a name made only of whitespace characters (tabs/CRs): `multispace0`
      -- eats it together with the newline, and `is_not!` chokes on `;`
      have hall : ∀ c ∈ N, isMultispace c = true := by
        have hmem := List.dropWhile_eq_nil_iff.mp hnil
        intro c hc
        simpa using hmem c hc
      have e1 : multispace0 (N ++ '\n' :: [';']) = [';'] := by
        rw [ms0_append_ws hall]
        simp [multispace0, List.dropWhile_cons, isMultispace]
      have e2 : isNot [' ', '+', '=', ';', '\n'] [';'] = none :=
        isNot_none_head (by simp) []
      constructor
      · simp only [parse_bool_param_no_value, e1, e2]
      · simp only [parse_param_with_value, e1, e2]
    · -- otherwise `is_not!` captures the rest of the name, and the newline
      -- lookahead of each scanner rejects
      have hne : N.dropWhile isMultispace ≠ [] := by
        rw [hcons]
        simp
      have e1 : multispace0 (N ++ '\n' :: [';']) = (n0 :: N1) ++ '\n' :: [';'] := by
        rw [multispace0, dropWhile_append_ne_nil hne, hcons]
      have hsub : ∀ c ∈ n0 :: N1, c ∈ N := by
        intro c hc
        rw [← hcons] at hc
        exact (List.dropWhile_sublist isMultispace).subset hc
      have hch' : ∀ c ∈ n0 :: N1, c ∉ [' ', '+', '=', ';', '\n'] :=
        fun c hc => hch c (hsub c hc)
      have e2 : isNot [' ', '+', '=', ';', '\n'] ((n0 :: N1) ++ '\n' :: [';']) =
          some ('\n' :: [';'], n0 :: N1) :=
        isNot_spec (n0 :: N1) '\n' [';'] hch' (by simp) (by simp)
      constructor
      · have e3 : notP (isA [' ', '+', '=', '\n'] ('\n' :: [';'])) = none :=
          notP_isA_head (by simp) [';']
        simp only [parse_bool_param_no_value, e1, e2, e3]
      · have e3 : notP (isA [';', '\n'] ('\n' :: [';'])) = none :=
          notP_isA_head (by simp) [';']
        simp only [parse_param_with_value, e1, e2, e3]
  · intro N V r hN hV
    exact ⟨parse_value_reject_nl_in_quoted hN hV r,
      fun hV0 => parse_value_reject_nl_unquoted hN hV hV0 r⟩

/-- Witness for C8 at `allow.mount\n;` and `a = "x\ny";` / `a = x\ny;`. -/
theorem C8_witness :
    parse_bool_param_no_value ("allow.mount".toList ++ '\n' :: [';']) = none ∧
      parse_param_with_value ("allow.mount".toList ++ '\n' :: [';']) = none ∧
      parse_param_with_value
          (['a'] ++ ' ' :: '=' :: ' ' :: '\"' :: (['x'] ++ '\n' :: ['y', '\"', ';'])) =
        none ∧
      parse_param_with_value (['a'] ++ ' ' :: '=' :: ' ' :: (['x'] ++ '\n' :: ['y', ';'])) =
        none := by
  refine ⟨(C8_newline_rejection.1 "allow.mount".toList (by decide)).1,
    (C8_newline_rejection.1 "allow.mount".toList (by decide)).2,
    (C8_newline_rejection.2 ['a'] ['x'] ['y', '\"', ';'] (by decide) (by decide)).1,
    (C8_newline_rejection.2 ['a'] ['x'] ['y', ';'] (by decide) (by decide)).2
      (by decide)⟩

/-- Claim C10 (confirmed).  The opening and the closing double quote around
a value are each independently optional in the value scanner: an opening
quote with no closing quote before the `;` (`N = "V;`) still succeeds and
yields the plain value, and so does a closing quote with no opening one
(`N = V";`, for values not beginning with a space or tab, which `space0`
would strip).  No `UnterminatedQuote`-style failure exists. -/
theorem C10_optional_quotes {N V : List Char} (hN : ValidName N)
    (hV : ValidValue V) :
    parse_param_with_value (N ++ ' ' :: '=' :: ' ' :: '\"' :: (V ++ [';'])) =
        some ([], ⟨N, V, false⟩) ∧
      (headNotSpaceTab V = true →
        parse_param_with_value (N ++ ' ' :: '=' :: ' ' :: (V ++ '\"' :: [';'])) =
          some ([], ⟨N, V, false⟩)) := by
  constructor
  · have := parse_value_spec_noclose hN hV ([] : List Char)
    simpa using this
  · intro hV0
    have := parse_value_spec_noopen hN hV hV0 ([] : List Char)
    simpa using this

/-- Witness for C10 at `a = "v;` and `a = v";`. -/
theorem C10_witness :
    parse_param_with_value ("a = \"v;".toList) = some ([], ⟨['a'], ['v'], false⟩) ∧
      parse_param_with_value ("a = v\";".toList) = some ([], ⟨['a'], ['v'], false⟩) := by
  have h := @C10_optional_quotes ['a'] ['v'] (by decide) (by decide)
  exact ⟨h.1, h.2 (by decide)⟩

/-- Claim C2 counterexample.  The claim quantifies over every value `V`
containing no `"`, but for `V = "b;c"` the input `a = "b;c";` does not
yield one `ValueParam{name="a", value="b;c"}`: `take_till!` stops at the
`;` inside the quotes, the statement ends at that `;`, and the document
parser then reads a bogus boolean `c"` from the leftovers - two entries,
with the value truncated to `b`. -/
theorem C2_counterexample_semicolon_in_value :
    parse ("a = \"b;c\";".toList) =
        some [.ParamValue ⟨['a'], ['b'], false⟩, .ParamBool ⟨['c', '\"']⟩] ∧
      (['b'] : List Char) ≠ ['b', ';', 'c'] := by
  exact ⟨rfl, by decide⟩

/-- Claim C2 (corrected).  For names over the scanner's name set that do
not begin with a tab or carriage return (the leading `multispace0` would
strip those), and for values containing none of `"`, `;`, newline (the
stop set of `take_till!`, which applies even inside quotes), the statement
`N = "V";` scans to exactly `ValueParam{name=N, value=V, append=false}`
with nothing left over; in particular `V` may be empty. -/
theorem C2_amended_value_param {N V : List Char} (hN : ValidName N)
    (hV : ValidValue V) :
    parse_param_with_value (N ++ ' ' :: '=' :: ' ' :: '\"' :: (V ++ '\"' :: [';'])) =
      some ([], ⟨N, V, false⟩) := by
  have := parse_value_spec_eq hN hV ([] : List Char)
  simpa using this

/-- Witness for the corrected C2 at `a = "";` (the empty quoted value). -/
theorem C2_witness :
    parse_param_with_value ("a = \"\";".toList) = some ([], ⟨['a'], [], false⟩) := by
  have h := @C2_amended_value_param ['a'] [] (by decide) (by decide)
  simpa using h

/-- Claim C3 counterexample.  The claim quantifies over every valid value,
i.e. every value without `"`; but for `V = "x\ny"` the input `a += "x\ny";`
does not yield a `ValueParam` with `append = true` - the scan fails
outright on the embedded newline. -/
theorem C3_counterexample_newline_value :
    parse_param_with_value ("a += \"x\ny\";".toList) = none := by
  rfl

/-- Claim C3 (corrected).  For names as in C2 and values additionally free
of `;` and newline, `N += "V";` scans with `append = true`, `N = "V";`
scans with `append = false`, and the `+` must immediately precede the `=`:
a space between them (`N + = ...`) fails the scan, because `opt!(char!('+'))`
has already consumed the `+` when `char!('=')` runs. -/
theorem C3_amended_append_flag {N V : List Char} (hN : ValidName N)
    (hV : ValidValue V) :
    parse_param_with_value
        (N ++ ' ' :: '+' :: '=' :: ' ' :: '\"' :: (V ++ '\"' :: [';'])) =
        some ([], ⟨N, V, true⟩) ∧
      parse_param_with_value (N ++ ' ' :: '=' :: ' ' :: '\"' :: (V ++ '\"' :: [';'])) =
        some ([], ⟨N, V, false⟩) ∧
      ∀ r, parse_param_with_value (N ++ ' ' :: '+' :: ' ' :: r) = none := by
  refine ⟨?_, ?_, fun r => parse_value_reject_plus_space hN r⟩
  · have := parse_value_spec_append hN hV ([] : List Char)
    simpa using this
  · have := parse_value_spec_eq hN hV ([] : List Char)
    simpa using this

/-- Witness for the corrected C3 at `a += "v";`, `a = "v";`, `a + = "v";`. -/
theorem C3_witness :
    parse_param_with_value ("a += \"v\";".toList) = some ([], ⟨['a'], ['v'], true⟩) ∧
      parse_param_with_value ("a = \"v\";".toList) =
        some ([], ⟨['a'], ['v'], false⟩) ∧
      parse_param_with_value ("a + = \"v\";".toList) = none := by
  have h := @C3_amended_append_flag ['a'] ['v'] (by decide) (by decide)
  exact ⟨h.1, h.2.1, h.2.2 ("= \"v\";".toList)⟩

/-- Claim C4 counterexample.  The claim's name set excludes only space,
`+`, `=`, `;` and newline, so `N = "\ta"` is a valid name; but parsing
`\ta;` yields `BooleanParam{name="a"}`, not `name="\ta"` - the scanner's
leading `multispace0` strips the tab before the name is captured. -/
theorem C4_counterexample_leading_tab :
    parse ("\ta;".toList) = some [.ParamBool ⟨['a']⟩] ∧
      (['a'] : List Char) ≠ ['\t', 'a'] := by
  exact ⟨rfl, by decide⟩

/-- Claim C4 (corrected).  For names over the scanner's name set that
additionally do not begin with a tab or carriage return: `N;` scans to
`BooleanParam{name=N}` (with any trailing whitespace absorbed), and no
input of the form `N = V;` or `N += V;` (any run of spaces before the `+`
or `=`) ever scans as a boolean parameter - after capturing the name the
scanner sees the space, `+` or `=` through `not!(is_a!(" +=\n"))` and
rejects before committing. -/
theorem C4_amended_bool_param {N : List Char} (hN : ValidName N) :
    (∀ r, parse_bool_param_no_value (N ++ ';' :: r) = some (multispace0 r, ⟨N⟩)) ∧
      ∀ sp V, (∀ c ∈ sp, c = ' ') →
        parse_bool_param_no_value (N ++ (sp ++ '=' :: V)) = none ∧
          parse_bool_param_no_value (N ++ (sp ++ '+' :: V)) = none := by
  refine ⟨fun r => parse_bool_spec hN r, ?_⟩
  intro sp V hsp
  cases sp with
  | nil =>
    exact ⟨parse_bool_reject hN (by simp) V, parse_bool_reject hN (by simp) V⟩
  | cons s0 sp1 =>
    have hs0 : s0 = ' ' := hsp s0 (by simp)
    subst hs0
    rw [List.cons_append, List.cons_append]
    exact ⟨parse_bool_reject hN (by simp) (sp1 ++ '=' :: V),
      parse_bool_reject hN (by simp) (sp1 ++ '+' :: V)⟩

/-- Witness for the corrected C4 at `persist;` and `allow.mount = true;`. -/
theorem C4_witness :
    parse_bool_param_no_value ("persist;".toList) = some ([], ⟨"persist".toList⟩) ∧
      parse_bool_param_no_value ("allow.mount = true;".toList) = none := by
  have h := @C4_amended_bool_param "persist".toList (by decide)
  have h2 := @C4_amended_bool_param "allow.mount".toList (by decide)
  refine ⟨?_, ?_⟩
  · have := h.1 []
    simpa using this
  · have := (h2.2 [' '] (' ' :: "true;".toList) (by decide)).1
    simpa using this

/-- Claim C5 counterexample.  A line comment at the very end of the input
without a trailing newline does not parse: `take_until!("\n")` requires the
newline to be present.  At the document level the comment is then silently
skipped as unparseable trailing input. -/
theorem C5_counterexample_eof_comment :
    parse_comment_cpp_style ("// c".toList) = none ∧
      parse ("// c".toList) = some [] := by
  exact ⟨rfl, rfl⟩

/-- Claim C5 (corrected).  A line comment (`//` or `#`) captures exactly
the characters up to and excluding the next newline when a newline exists
(the scanner's trailing `multispace0` then consumes that newline and any
following whitespace); when no newline follows - a line comment at end of
input - the scanner fails instead of treating end of input as a
terminator. -/
theorem C5_amended_line_comment {t : List Char} (h : '\n' ∉ t) (r : List Char) :
    parse_comment_cpp_style ('/' :: '/' :: (t ++ '\n' :: r)) =
        some (multispace0 r, ⟨t, .CPP⟩) ∧
      parse_comment_shell_style ('#' :: (t ++ '\n' :: r)) =
        some (multispace0 r, ⟨t, .Shell⟩) ∧
      parse_comment_cpp_style ('/' :: '/' :: t) = none ∧
      parse_comment_shell_style ('#' :: t) = none :=
  ⟨parse_cpp_spec h r, parse_shell_spec h r, parse_cpp_none h, parse_shell_none h⟩

/-- Witness for the corrected C5 at `// c\nx;` and `# c` (no newline). -/
theorem C5_witness :
    parse_comment_cpp_style ("// c\nx;".toList) = some ("x;".toList, ⟨" c".toList, .CPP⟩) ∧
      parse_comment_shell_style ("# c".toList) = none := by
  have h := @C5_amended_line_comment " c".toList (by decide) "x;".toList
  exact ⟨h.1, h.2.2.2⟩

/-- Claim C6 counterexample.  The boolean scanner does consume surrounding
whitespace: on `" a; b"` it strips the leading space, scans `a;`, and its
trailing `multispace0` eats the following space, returning remainder `"b"`
rather than `" b"` - so the remainder does not begin at the first character
after the matched statement, and whitespace handling is not left to the
caller. -/
theorem C6_counterexample_whitespace :
    parse_bool_param_no_value (" a; b".toList) = some (['b'], ⟨['a']⟩) ∧
      (['b'] : List Char) ≠ [' ', 'b'] := by
  exact ⟨rfl, by decide⟩

/-- Claim C6 (corrected).  Every scanner begins and ends with `multispace0`:
leading whitespace in front of a statement is absorbed by the scanner
itself (prepending whitespace does not change the boolean scanner's
result), trailing whitespace after the `;` is consumed along with the
statement, and a line-comment scanner consumes its terminating newline plus
any following whitespace.  The document parser does no whitespace skipping
of its own - the scanners' own `multispace0` calls are the only trimming. -/
theorem C6_amended_scanner_whitespace :
    (∀ w s : List Char, (∀ c ∈ w, isMultispace c = true) →
      parse_bool_param_no_value (w ++ s) = parse_bool_param_no_value s) ∧
      (∀ N w r, ValidName N → (∀ c ∈ w, isMultispace c = true) →
        headNotWs r = true →
        parse_bool_param_no_value (N ++ ';' :: (w ++ r)) = some (r, ⟨N⟩)) ∧
      ∀ t w r, '\n' ∉ t → (∀ c ∈ w, isMultispace c = true) →
        headNotWs r = true →
        parse_comment_cpp_style ('/' :: '/' :: (t ++ '\n' :: (w ++ r))) =
          some (r, ⟨t, .CPP⟩) := by
  refine ⟨?_, ?_, ?_⟩
  · intro w s hw
    simp only [parse_bool_param_no_value, multispace0]
    rw [dropWhile_append_all w s hw]
  · intro N w r hN hw hr
    have := parse_bool_spec hN (w ++ r)
    rw [ms0_append_ws hw, ms0_headNotWs hr] at this
    exact this
  · intro t w r ht hw hr
    have := parse_cpp_spec ht (w ++ r)
    rw [ms0_append_ws hw, ms0_headNotWs hr] at this
    exact this

/-- Witness for the corrected C6 at `\n persist;`, `persist; \nx` and
`//c\n  x`. -/
theorem C6_witness :
    parse_bool_param_no_value ("\n persist;".toList) =
        parse_bool_param_no_value ("persist;".toList) ∧
      parse_bool_param_no_value ("persist; \nx".toList) =
        some (['x'], ⟨"persist".toList⟩) ∧
      parse_comment_cpp_style ("//c\n  x".toList) = some (['x'], ⟨['c'], .CPP⟩) := by
  refine ⟨?_, ?_, ?_⟩
  · have := C6_amended_scanner_whitespace.1 ['\n', ' '] "persist;".toList (by decide)
    simpa using this
  · have := C6_amended_scanner_whitespace.2.1 "persist".toList [' ', '\n'] ['x']
      (by decide) (by decide) (by decide)
    simpa using this
  · have := C6_amended_scanner_whitespace.2.2 ['c'] [' ', ' '] ['x'] (by decide)
      (by decide) (by decide)
    simpa using this

/-- Claim C1 counterexample.  Non-whitespace trailing content does not make
`parse` fail: on the input `;` no scanner matches, the document parser
stops with the whole input as its remainder, and `parse` still returns
`Ok([])` - a partial (here empty) tree.  Likewise an opened block with no
matching `}` (`x{`) returns `Ok([])` instead of a failure. -/
theorem C1_counterexample_trailing_content :
    parse ([';']) = some [] ∧ parse (['x', '\x7b']) = some [] := by
  exact ⟨rfl, rfl⟩

/-- Claim C1 (corrected).  `parse` never checks the remainder: it binds the
document parser's unconsumed input as `_unparsed` and discards it, and the
document parser itself (nom `many0`) always succeeds, so `parse` returns
`Ok` with the entries matched from a prefix of the input for *every* input;
trailing garbage and unclosed blocks yield a partial tree, not a
`ParseFailure`. -/
theorem C1_amended_parse_discards_remainder (s : List Char) :
    ∃ rem es, parse_input s = some (rem, es) ∧ parse s = some es := by
  obtain ⟨rem, es, h⟩ := parse_input_total s
  refine ⟨rem, es, h, ?_⟩
  simp only [parse, h]

/-! ## Claim C9: structural invariants of every parsed tree -/

/-- The invariant claimed for every entry of a successfully parsed tree:
parameter names are non-empty and avoid space/`+`/`=`/`;`/newline, block
names are non-empty and avoid space/`{`/`;`/newline, values avoid
`"`/`;`/newline (which covers both the quoted and the unquoted claim), and
the invariant holds recursively inside blocks. -/
inductive EntryOk : JailConf → Prop where
  | comment : ∀ c, EntryOk (.Comment c)
  | paramBool : ∀ p : JailParamBool, p.name ≠ [] →
      (∀ c ∈ p.name, c ∉ [' ', '+', '=', ';', '\n']) → EntryOk (.ParamBool p)
  | paramValue : ∀ p : JailParamValue, p.name ≠ [] →
      (∀ c ∈ p.name, c ∉ [' ', '+', '=', ';', '\n']) →
      (∀ c ∈ p.value, c ∉ ['\"', ';', '\n']) → EntryOk (.ParamValue p)
  | block : ∀ (n : List Char) (ps : List JailConf), n ≠ [] →
      (∀ c ∈ n, c ∉ [' ', '\x7b', ';', '\n']) →
      (∀ e ∈ ps, EntryOk e) → EntryOk (.Block n ps)

theorem isNot_sound {bad s r tok : List Char}
    (h : isNot bad s = some (r, tok)) : tok ≠ [] ∧ ∀ c ∈ tok, c ∉ bad := by
  simp only [isNot] at h
  split at h
  · exact absurd h (by simp)
  · next he =>
    have htok : tok = s.takeWhile fun c => !bad.contains c := by
      injection h with h1
      injection h1 with h2 h3
      exact h3.symm
    constructor
    · intro hnil
      rw [htok] at hnil
      rw [hnil] at he
      exact he rfl
    · intro c hc
      rw [htok] at hc
      have := List.mem_takeWhile_imp hc
      simpa using this

theorem takeTill_sound {p : Char → Bool} {s : List Char} {c : Char}
    (hc : c ∈ (takeTill p s).2) : p c = false := by
  simp only [takeTill] at hc
  have := List.mem_takeWhile_imp hc
  simpa using this

/-- Whatever the boolean scanner returns satisfies the name invariant. -/
theorem parse_bool_sound {s r : List Char} {b : JailParamBool}
    (h : parse_bool_param_no_value s = some (r, b)) :
    b.name ≠ [] ∧ ∀ c ∈ b.name, c ∉ [' ', '+', '=', ';', '\n'] := by
  revert h
  simp only [parse_bool_param_no_value]
  cases hnot : isNot [' ', '+', '=', ';', '\n'] (multispace0 s) with
  | none => intro h; exact absurd h (by simp)
  | some v =>
    obtain ⟨s1, name⟩ := v
    dsimp only
    cases notP (isA [' ', '+', '=', '\n'] s1) with
    | none => intro h; exact absurd h (by simp)
    | some u =>
      dsimp only
      cases charP ';' s1 with
      | none => intro h; exact absurd h (by simp)
      | some s2 =>
        dsimp only
        intro h
        injection h with h1
        injection h1 with h2 h3
        subst h3
        exact isNot_sound hnot

/-- Whatever the value scanner returns satisfies the name and value
invariants. -/
theorem parse_value_sound {s r : List Char} {p : JailParamValue}
    (h : parse_param_with_value s = some (r, p)) :
    (p.name ≠ [] ∧ ∀ c ∈ p.name, c ∉ [' ', '+', '=', ';', '\n']) ∧
      ∀ c ∈ p.value, c ∉ ['\"', ';', '\n'] := by
  revert h
  simp only [parse_param_with_value]
  cases hnot : isNot [' ', '+', '=', ';', '\n'] (multispace0 s) with
  | none => intro h; exact absurd h (by simp)
  | some v =>
    obtain ⟨s1, name⟩ := v
    dsimp only
    cases notP (isA [';', '\n'] s1) with
    | none => intro h; exact absurd h (by simp)
    | some u =>
      dsimp only
      cases charP '=' (optChar '+' (space0 s1)).1 with
      | none => intro h; exact absurd h (by simp)
      | some s5 =>
        dsimp only
        cases hnp2 : notP (isA ['\n']
            (optTag ['\"'] (takeTill (fun ch => (['\"', ';', '\n']).contains ch)
              (optTag ['\"'] (space0 s5))).1)) with
        | none => intro h; exact absurd h (by simp)
        | some u2 =>
          dsimp only
          cases charP ';' (optTag ['\"'] (takeTill
              (fun ch => (['\"', ';', '\n']).contains ch)
              (optTag ['\"'] (space0 s5))).1) with
          | none => intro h; exact absurd h (by simp)
          | some s10 =>
            dsimp only
            intro h
            injection h with h1
            injection h1 with h2 h3
            subst h3
            refine ⟨isNot_sound hnot, ?_⟩
            intro c hc
            have := takeTill_sound hc
            simpa using this

/-- Whatever the block parser returns is a `Block` whose name satisfies the
block-name invariant and whose children come from one run of the given
document parser on the interior. -/
theorem parse_block_core_sound
    {p : List Char → Option (List Char × List JailConf)} {s r : List Char}
    {e : JailConf} (h : parse_block_core p s = some (r, e)) :
    ∃ name ps s6 s7, e = .Block name ps ∧ name ≠ [] ∧
      (∀ c ∈ name, c ∉ [' ', '\x7b', ';', '\n']) ∧ p s6 = some (s7, ps) := by
  revert h
  simp only [parse_block_core]
  cases hnot : isNot [' ', '\x7b', ';', '\n'] (multispace0 s) with
  | none => intro h; exact absurd h (by simp)
  | some v =>
    obtain ⟨s1, name⟩ := v
    dsimp only
    cases notP (isA [';', '\n'] (multispace0 s1)) with
    | none => intro h; exact absurd h (by simp)
    | some u =>
      dsimp only
      cases charP '\x7b' (multispace0 (multispace0 s1)) with
      | none => intro h; exact absurd h (by simp)
      | some s5 =>
        dsimp only
        cases hrec : p (multispace0 s5) with
        | none => intro h; exact absurd h (by simp)
        | some v2 =>
          obtain ⟨s7, params⟩ := v2
          dsimp only
          cases charP '\x7d' (multispace0 s7) with
          | none => intro h; exact absurd h (by simp)
          | some s9 =>
            dsimp only
            intro h
            injection h with h1
            injection h1 with h2 h3
            obtain ⟨hne, hchars⟩ := isNot_sound hnot
            exact ⟨name, params, multispace0 s5, s7, h3.symm, hne, hchars, hrec⟩

/-- One `alt!` step preserves the invariant, given that the inner document
parser does. -/
theorem parse_entry_core_inv
    {p : List Char → Option (List Char × List JailConf)} {s s' : List Char}
    {e : JailConf}
    (hp : ∀ t u es, p t = some (u, es) → ∀ x ∈ es, EntryOk x)
    (h : parse_entry_core p s = some (s', e)) : EntryOk e := by
  revert h
  simp only [parse_entry_core]
  cases parse_comment_c_style s with
  | some v =>
    obtain ⟨r0, c0⟩ := v
    dsimp only
    intro h
    injection h with h1
    injection h1 with h2 h3
    subst h3
    exact EntryOk.comment c0
  | none =>
    dsimp only
    cases parse_comment_cpp_style s with
    | some v =>
      obtain ⟨r0, c0⟩ := v
      dsimp only
      intro h
      injection h with h1
      injection h1 with h2 h3
      subst h3
      exact EntryOk.comment c0
    | none =>
      dsimp only
      cases parse_comment_shell_style s with
      | some v =>
        obtain ⟨r0, c0⟩ := v
        dsimp only
        intro h
        injection h with h1
        injection h1 with h2 h3
        subst h3
        exact EntryOk.comment c0
      | none =>
        dsimp only
        cases hb : parse_bool_param_no_value s with
        | some v =>
          obtain ⟨r0, b0⟩ := v
          dsimp only
          intro h
          injection h with h1
          injection h1 with h2 h3
          subst h3
          obtain ⟨hne, hchars⟩ := parse_bool_sound hb
          exact EntryOk.paramBool b0 hne hchars
        | none =>
          dsimp only
          cases hv : parse_param_with_value s with
          | some v =>
            obtain ⟨r0, p0⟩ := v
            dsimp only
            intro h
            injection h with h1
            injection h1 with h2 h3
            subst h3
            obtain ⟨⟨hne, hchars⟩, hval⟩ := parse_value_sound hv
            exact EntryOk.paramValue p0 hne hchars hval
          | none =>
            dsimp only
            intro h
            obtain ⟨name, ps, s6, s7, he, hne, hchars, hrec⟩ :=
              parse_block_core_sound h
            subst he
            exact EntryOk.block name ps hne hchars (hp _ _ _ hrec)

/-- The fuelled document parser only produces entries satisfying the
invariant. -/
theorem parse_input_fuel_inv :
    ∀ f s rem es, parse_input_fuel f s = some (rem, es) → ∀ e ∈ es, EntryOk e := by
  intro f
  induction f with
  | zero =>
    intro s rem es h
    exact absurd h (by simp [parse_input_fuel])
  | succ f ih =>
    intro s rem es h
    simp only [parse_input_fuel] at h
    split at h
    · injection h with h1
      injection h1 with h2 h3
      subst h3
      intro e he
      exact absurd he (by simp)
    · next s' e0 hpec =>
      split at h
      · exact absurd h (by simp)
      · split at h
        · exact absurd h (by simp)
        · next rem2 es2 hrec =>
          injection h with h1
          injection h1 with h2 h3
          subst h3
          intro e he
          rcases List.mem_cons.mp he with rfl | htail
          · exact parse_entry_core_inv (fun t u es3 ht => ih t u es3 ht) hpec
          · exact ih _ _ _ hrec e htail

/-- Claim C9 (confirmed).  On every input on which `parse` succeeds, every
entry of the resulting tree, at every depth, satisfies the claimed
invariants: boolean/value parameter names are non-empty and avoid
space/`+`/`=`/`;`/newline, block names are non-empty and avoid
space/`{`/`;`/newline, and every value avoids `"`, `;` and newline (so a
quoted value has no `"` and an unquoted one no `;`/newline). -/
theorem C9_invariants {s : List Char} {es : List JailConf}
    (h : parse s = some es) : ∀ e ∈ es, EntryOk e := by
  simp only [parse] at h
  split at h
  · next rem parsed hsome =>
    injection h with h1
    subst h1
    exact parse_input_fuel_inv _ _ _ _ hsome
  · exact absurd h (by simp)

/-- Witness for C9 at `nginx { a = "v"; b; }`. -/
theorem C9_witness :
    parse ("nginx \x7b a = \"v\"; b; \x7d".toList) =
        some [.Block "nginx".toList
          [.ParamValue ⟨['a'], ['v'], false⟩, .ParamBool ⟨['b']⟩]] ∧
      ∀ e ∈ [JailConf.Block "nginx".toList
          [.ParamValue ⟨['a'], ['v'], false⟩, .ParamBool ⟨['b']⟩]], EntryOk e := by
  have hp : parse ("nginx \x7b a = \"v\"; b; \x7d".toList) =
      some [.Block "nginx".toList
        [.ParamValue ⟨['a'], ['v'], false⟩, .ParamBool ⟨['b']⟩]] := rfl
  exact ⟨hp, C9_invariants hp⟩

/-! ## Claim C7: nested blocks -/

/-- Names for which the one-line nested-block example is interference-free:
non-empty, no whitespace (tab/CR included - the scanners' `multispace0`
would strip them), none of the parameter/block delimiters `+`, `=`, `;`,
`{`, and not starting a comment (`/`, `#`). -/
def GoodName (n : List Char) : Prop :=
  n ≠ [] ∧ ∀ c ∈ n, c ∉ [' ', '\t', '\r', '\n', '+', '=', ';', '\x7b', '/', '#']

instance (n : List Char) : Decidable (GoodName n) := by
  unfold GoodName
  infer_instance

theorem goodName_validName {n : List Char} (h : GoodName n) : ValidName n := by
  obtain ⟨h1, h2⟩ := h
  refine ⟨h1, ?_, ?_⟩
  · intro c hc
    have := h2 c hc
    simp only [List.mem_cons, List.not_mem_nil] at this ⊢
    tauto
  · obtain ⟨n0, n1, rfl⟩ := List.exists_cons_of_ne_nil h1
    have := h2 n0 (by simp)
    simp only [List.mem_cons, List.not_mem_nil] at this
    simp only [headNotWs, isMultispace]
    have h' := this
    simp only [not_or] at h'
    simp [h'.1, h'.2.1, h'.2.2.1, h'.2.2.2.1]

theorem goodName_validBlockName {n : List Char} (h : GoodName n) :
    ValidBlockName n := by
  obtain ⟨h1, h2⟩ := h
  refine ⟨h1, ?_, (goodName_validName ⟨h1, h2⟩).2.2⟩
  intro c hc
  have := h2 c hc
  simp only [List.mem_cons, List.not_mem_nil] at this ⊢
  tauto

theorem headNotWs_goodName_append {n : List Char} (h : GoodName n)
    (r : List Char) : headNotWs (n ++ r) = true := by
  obtain ⟨h1, h2⟩ := h
  obtain ⟨n0, n1, rfl⟩ := List.exists_cons_of_ne_nil h1
  have := h2 n0 (by simp)
  simp only [List.mem_cons, List.not_mem_nil, not_or] at this
  rw [List.cons_append]
  simp only [headNotWs, isMultispace]
  simp [this.1, this.2.1, this.2.2.1, this.2.2.2.1]

/-- All three comment scanners fail on an input starting with a good
name. -/
theorem parse_comments_fail_name {n : List Char} (h : GoodName n)
    (r : List Char) :
    parse_comment_c_style (n ++ r) = none ∧
      parse_comment_cpp_style (n ++ r) = none ∧
      parse_comment_shell_style (n ++ r) = none := by
  obtain ⟨h1, h2⟩ := h
  obtain ⟨n0, n1, rfl⟩ := List.exists_cons_of_ne_nil h1
  have hmem := h2 n0 (by simp)
  simp only [List.mem_cons, List.not_mem_nil, not_or] at hmem
  have hws : isMultispace n0 = false := by
    simp [isMultispace, hmem.1, hmem.2.1, hmem.2.2.1, hmem.2.2.2.1]
  rw [List.cons_append]
  exact parse_comments_fail_head hws hmem.2.2.2.2.2.2.2.2.1
    hmem.2.2.2.2.2.2.2.2.2.1 _

/-- Claim C7 counterexample.  The claim quantifies over valid names, and
block names may contain `=` (only space, `{`, `;`, newline are excluded);
but with `A = "a=b"` the input `a=b { b { c; } }` is captured by the value
scanner first: it parses as the single entry
`ValueParam{name="a", value="b { b { c", append=false}` (with leftovers
re-scanned), not as the nested `Block` structure. -/
theorem C7_counterexample_equals_name :
    parse ("a=b \x7b b \x7b c; \x7d \x7d".toList) =
      some [.ParamValue ⟨['a'], "b \x7b b \x7b c".toList, false⟩] := by
  rfl

/-- Claim C7 (corrected).  For names that avoid whitespace, the delimiter
characters `+ = ; {` and the comment-starting characters `/ #`, the input
`A { B { C; } }` parses to `Block(A, [Block(B, [BooleanParam(C)])])`: a
block's children are exactly one document-parser run over its braced
interior, blocks nest, and (as the empty interior of the recursion shows)
may be empty. -/
theorem C7_amended_nested_blocks {A B C : List Char}
    (hA : GoodName A) (hB : GoodName B) (hC : GoodName C) :
    parse (A ++ ' ' :: '\x7b' :: ' ' :: (B ++ ' ' :: '\x7b' :: ' ' ::
        (C ++ ';' :: ' ' :: '\x7d' :: ' ' :: ['\x7d']))) =
      some [.Block A [.Block B [.ParamBool ⟨C⟩]]] := by
  have hAb := goodName_validBlockName hA
  have hBv := goodName_validName hB
  have hBb := goodName_validBlockName hB
  have hCv := goodName_validName hC
  -- innermost level: the boolean statement `C;`
  have hCmts := parse_comments_fail_name hC (';' :: ' ' :: '\x7d' :: ' ' :: ['\x7d'])
  have hboolC : parse_bool_param_no_value
      (C ++ ';' :: ' ' :: '\x7d' :: ' ' :: ['\x7d']) =
      some (['\x7d', ' ', '\x7d'], ⟨C⟩) := by
    have h := parse_bool_spec hCv (' ' :: '\x7d' :: ' ' :: ['\x7d'])
    have e : multispace0 (' ' :: '\x7d' :: ' ' :: ['\x7d']) = ['\x7d', ' ', '\x7d'] :=
      rfl
    rw [e] at h
    exact h
  have hentryC : parse_entry (C ++ ';' :: ' ' :: '\x7d' :: ' ' :: ['\x7d']) =
      some (['\x7d', ' ', '\x7d'], .ParamBool ⟨C⟩) :=
    parse_entry_core_alt_bool hCmts.1 hCmts.2.1 hCmts.2.2 hboolC
  have hneC : (['\x7d', ' ', '\x7d'] : List Char) ≠
      C ++ ';' :: ' ' :: '\x7d' :: ' ' :: ['\x7d'] := by
    intro he
    have hlen := congrArg List.length he
    simp only [List.length_append, List.length_cons] at hlen
    omega
  have hiC : parse_input (C ++ ';' :: ' ' :: '\x7d' :: ' ' :: ['\x7d']) =
      some (['\x7d', ' ', '\x7d'], [.ParamBool ⟨C⟩]) := by
    rw [parse_input_eq, hentryC]
    dsimp only
    rw [if_neg hneC]
    rfl
  -- middle level: the block `B { C; }`
  have hCmtsB := parse_comments_fail_name hB
    (' ' :: '\x7b' :: ' ' :: (C ++ ';' :: ' ' :: '\x7d' :: ' ' :: ['\x7d']))
  have hboolB := parse_bool_reject hBv
    (show (' ' : Char) ∈ [' ', '+', '=', '\n'] by simp)
    ('\x7b' :: ' ' :: (C ++ ';' :: ' ' :: '\x7d' :: ' ' :: ['\x7d']))
  have hvalB := parse_value_reject_brace hBv
    (' ' :: (C ++ ';' :: ' ' :: '\x7d' :: ' ' :: ['\x7d']))
  have hstepB := @parse_block_core_step parse_input B hBb
    (C ++ ';' :: ' ' :: '\x7d' :: ' ' :: ['\x7d'])
    (headNotWs_goodName_append hC _)
  have hentryB : parse_entry (B ++ ' ' :: '\x7b' :: ' ' ::
      (C ++ ';' :: ' ' :: '\x7d' :: ' ' :: ['\x7d'])) =
      some (['\x7d'], .Block B [.ParamBool ⟨C⟩]) := by
    show parse_entry_core parse_input _ = _
    rw [parse_entry_core_alt_block hCmtsB.1 hCmtsB.2.1 hCmtsB.2.2 hboolB hvalB]
    rw [hstepB, hiC]
    rfl
  have hneB : (['\x7d'] : List Char) ≠ B ++ ' ' :: '\x7b' :: ' ' ::
      (C ++ ';' :: ' ' :: '\x7d' :: ' ' :: ['\x7d']) := by
    intro he
    have hlen := congrArg List.length he
    simp only [List.length_append, List.length_cons] at hlen
    omega
  have hiB : parse_input (B ++ ' ' :: '\x7b' :: ' ' ::
      (C ++ ';' :: ' ' :: '\x7d' :: ' ' :: ['\x7d'])) =
      some (['\x7d'], [.Block B [.ParamBool ⟨C⟩]]) := by
    rw [parse_input_eq, hentryB]
    dsimp only
    rw [if_neg hneB]
    rfl
  -- outer level: the block `A { ... }`
  have hCmtsA := parse_comments_fail_name hA
    (' ' :: '\x7b' :: ' ' :: (B ++ ' ' :: '\x7b' :: ' ' ::
      (C ++ ';' :: ' ' :: '\x7d' :: ' ' :: ['\x7d'])))
  have hAv := goodName_validName hA
  have hboolA := parse_bool_reject hAv
    (show (' ' : Char) ∈ [' ', '+', '=', '\n'] by simp)
    ('\x7b' :: ' ' :: (B ++ ' ' :: '\x7b' :: ' ' ::
      (C ++ ';' :: ' ' :: '\x7d' :: ' ' :: ['\x7d'])))
  have hvalA := parse_value_reject_brace hAv
    (' ' :: (B ++ ' ' :: '\x7b' :: ' ' ::
      (C ++ ';' :: ' ' :: '\x7d' :: ' ' :: ['\x7d'])))
  have hstepA := @parse_block_core_step parse_input A hAb
    (B ++ ' ' :: '\x7b' :: ' ' :: (C ++ ';' :: ' ' :: '\x7d' :: ' ' :: ['\x7d']))
    (headNotWs_goodName_append hB _)
  have hentryA : parse_entry (A ++ ' ' :: '\x7b' :: ' ' ::
      (B ++ ' ' :: '\x7b' :: ' ' ::
        (C ++ ';' :: ' ' :: '\x7d' :: ' ' :: ['\x7d']))) =
      some ([], .Block A [.Block B [.ParamBool ⟨C⟩]]) := by
    show parse_entry_core parse_input _ = _
    rw [parse_entry_core_alt_block hCmtsA.1 hCmtsA.2.1 hCmtsA.2.2 hboolA hvalA]
    rw [hstepA, hiB]
    rfl
  have hneA : ([] : List Char) ≠ A ++ ' ' :: '\x7b' :: ' ' ::
      (B ++ ' ' :: '\x7b' :: ' ' ::
        (C ++ ';' :: ' ' :: '\x7d' :: ' ' :: ['\x7d'])) := by
    intro he
    have hlen := congrArg List.length he
    simp only [List.length_append, List.length_cons] at hlen
    omega
  have hiA : parse_input (A ++ ' ' :: '\x7b' :: ' ' ::
      (B ++ ' ' :: '\x7b' :: ' ' ::
        (C ++ ';' :: ' ' :: '\x7d' :: ' ' :: ['\x7d']))) =
      some ([], [.Block A [.Block B [.ParamBool ⟨C⟩]]]) := by
    rw [parse_input_eq, hentryA]
    dsimp only
    rw [if_neg hneA]
    rfl
  simp only [parse, hiA]

/-- Witness for the corrected C7 at `a { b { c; } }`. -/
theorem C7_witness :
    parse ("a \x7b b \x7b c; \x7d \x7d".toList) =
      some [.Block ['a'] [.Block ['b'] [.ParamBool ⟨['c']⟩]]] := by
  have h := @C7_amended_nested_blocks ['a'] ['b'] ['c'] (by decide) (by decide)
    (by decide)
  simpa using h
